import Mathlib

/-!
Shallow embedding of the SNBT language-file split/merge tool
(`LangSpliter.py`) and of the translation download script
(`para2github.py`), together with proofs of the specification's
testable properties.

Strings are modelled as Lean `String`s (lists of Unicode scalar
values), matching Python `str`.  Python's `str.replace` with one- and
two-character patterns is modelled by `replace1` and `replace2`
below (left-to-right, non-overlapping).  The regex class `\d` is
modelled as the ASCII digits `0`-`9`, the digit class actually
occurring in this tool's keys.  Python's stable `sorted`/`list.sort`
is modelled by `List.mergeSort le` with `le a b = !(b < a)`.
-/

namespace LangTools

/-! ## Definitions -/

/-- Python `s.replace(p, rep)` for a one-character pattern `p`. -/
def replace1 (p : Char) (rep : List Char) : List Char → List Char
  | [] => []
  | c :: rest => (if c = p then rep else [c]) ++ replace1 p rep rest

/-- Python `s.replace(p₁p₂, rep)` for a two-character pattern:
left-to-right scan, non-overlapping replacement. -/
def replace2 (p1 p2 : Char) (rep : List Char) : List Char → List Char
  | [] => []
  | [c] => [c]
  | c1 :: c2 :: rest =>
    if c1 = p1 ∧ c2 = p2 then rep ++ replace2 p1 p2 rep rest
    else c1 :: replace2 p1 p2 rep (c2 :: rest)

/-- Embedding of `unescape_string` from `LangSpliter.py` (lines
60-64): first `\"` → `"`, then `\\` → `\`. -/
def unescapeChars (l : List Char) : List Char :=
  replace2 '\\' '\\' ['\\'] (replace2 '\\' '"' ['"'] l)

def unescape_string (s : String) : String := ⟨unescapeChars s.data⟩

/-- Embedding of `escape_string_for_snbt` from `LangSpliter.py`
(lines 67-71): first `\` → `\\`, then `"` → `\"`. -/
def escapeChars (l : List Char) : List Char :=
  replace1 '"' ['\\', '"'] (replace1 '\\' ['\\', '\\'] l)

def escape_string_for_snbt (s : String) : String := ⟨escapeChars s.data⟩

/-- Per-character encoding realised by `escapeChars`. -/
def encChar (c : Char) : List Char :=
  if c = '\\' then ['\\', '\\'] else if c = '"' then ['\\', '"'] else [c]

/-- Intermediate encoding after undoing the quote escapes only. -/
def encodeMid : List Char → List Char
  | [] => []
  | c :: l => (if c = '\\' then ['\\', '\\'] else [c]) ++ encodeMid l

/-- Decimal digit characters of `n`, most significant first; `fuel`
bounds the recursion depth. -/
def natDigitsAux : Nat → Nat → List Char
  | 0, _ => []
  | _ + 1, 0 => []
  | fuel + 1, n + 1 =>
    natDigitsAux fuel ((n + 1) / 10) ++ [Char.ofNat (48 + (n + 1) % 10)]

/-- Python `str(n)` for a natural number: decimal digits, most
significant first, no leading zeros. -/
def natDigits (n : Nat) : List Char :=
  if n = 0 then ['0'] else natDigitsAux n n

def natStr (n : Nat) : String := ⟨natDigits n⟩

/-- Python `int(s)` on a string of decimal digits. -/
def digitVal (c : Char) : Nat := c.toNat - 48

def parseDigits (l : List Char) : Nat := l.foldl (fun a c => a * 10 + digitVal c) 0

/-- Embedding of `re.match(r'^(.*?)(\d+)$', key)`: `some (base,
int(digits))` when the key ends in at least one decimal digit, where
`digits` is the maximal trailing digit run and `base` is the rest;
`none` otherwise. -/
def splitKey (key : List Char) : Option (List Char × Nat) :=
  let ds := key.reverse.takeWhile Char.isDigit
  if ds = [] then none
  else some ((key.reverse.dropWhile Char.isDigit).reverse, parseDigits ds.reverse)

/-- A key has no trailing decimal digit. -/
def noDigitSuffix (l : List Char) : Prop := l.reverse.takeWhile Char.isDigit = []

instance (l : List Char) : Decidable (noDigitSuffix l) :=
  inferInstanceAs (Decidable (l.reverse.takeWhile Char.isDigit = []))

/-- Python `<` on strings: lexicographic comparison of code points. -/
def clistLt : List Char → List Char → Bool
  | _, [] => false
  | [], _ :: _ => true
  | a :: as, b :: bs => decide (a < b) || (a == b && clistLt as bs)

/-- Python `needle == haystack[:len(needle)]`, i.e. `str.startswith`. -/
def isPre : List Char → List Char → Bool
  | [], _ => true
  | _ :: _, [] => false
  | a :: as, b :: bs => a == b && isPre as bs

/-- Strip a literal leading pattern: `some rest` when
`key = pat ++ rest`, else `none`. -/
def afterPre : List Char → List Char → Option (List Char)
  | [], t => some t
  | _ :: _, [] => none
  | a :: as, b :: bs => if a == b then afterPre as bs else none

/-- Python `needle in haystack` (substring containment). -/
def hasInfix (needle : List Char) : List Char → Bool
  | [] => isPre needle []
  | c :: t => isPre needle (c :: t) || hasInfix needle t

def containsStr (hay needle : String) : Bool := hasInfix needle.data hay.data

/-! ### Values and the OrderedDict model -/

/-- A JSON value held in the combined language mapping: a string or
an array (possibly nested, as JSON allows). -/
inductive Val where
  | str : String → Val
  | lst : List Val → Val

def Val.beq : Val → Val → Bool
  | .str a, .str b => a == b
  | .lst [], .lst [] => true
  | .lst (x :: xs), .lst (y :: ys) => Val.beq x y && Val.beq (.lst xs) (.lst ys)
  | _, _ => false
termination_by a _ => sizeOf a

theorem Val.beq_iff : ∀ (a b : Val), Val.beq a b = true ↔ a = b
  | .str _, .str _ => by simp [Val.beq]
  | .str _, .lst _ => by simp [Val.beq]
  | .lst _, .str _ => by simp [Val.beq]
  | .lst [], .lst [] => by simp [Val.beq]
  | .lst [], .lst (_ :: _) => by simp [Val.beq]
  | .lst (_ :: _), .lst [] => by simp [Val.beq]
  | .lst (x :: xs), .lst (y :: ys) => by
    have h1 := Val.beq_iff x y
    have h2 := Val.beq_iff (.lst xs) (.lst ys)
    simp only [Val.beq, Bool.and_eq_true, h1, h2, Val.lst.injEq, List.cons.injEq] at *
termination_by a _ => sizeOf a

instance : DecidableEq Val := fun a b => decidable_of_iff _ (Val.beq_iff a b)

/-- Python `OrderedDict`/`dict` assignment `m[k] = v`: an existing
key keeps its position and gets the new value; a new key is appended. -/
def upsert {β : Type} (m : List (String × β)) (k : String) (v : β) : List (String × β) :=
  if m.any (fun e => e.1 == k) then
    m.map (fun e => if e.1 == k then (e.1, v) else e)
  else m ++ [(k, v)]

/-- Embedding of `temp_multiline[base_key].append((line_number,
value))`, creating the entry when absent (lines 384-386). -/
def appendMulti (m : List (String × List (Nat × Val))) (k : String) (p : Nat × Val) :
    List (String × List (Nat × Val)) :=
  if m.any (fun e => e.1 == k) then
    m.map (fun e => if e.1 == k then (e.1, e.2 ++ [p]) else e)
  else m ++ [(k, [p])]

/-- One iteration of the reconstruction scan (lines 378-388): keys
matching `^(.*?)(\d+)$` accumulate into the multi-line table, other
keys go directly to the result. -/
def regroupStep (acc : List (String × List (Nat × Val)) × List (String × Val))
    (e : String × Val) :
    List (String × List (Nat × Val)) × List (String × Val) :=
  match splitKey e.1.data with
  | some (b, n) => (appendMulti acc.1 ⟨b⟩ (n, e.2), acc.2)
  | none => (acc.1, acc.2 ++ [e])

/-- Embedding of `lines_with_nums.sort(key=lambda x: x[0])`: stable
ascending sort by the numeric index (line 391). -/
def sortPairsByIdx (l : List (Nat × Val)) : List (Nat × Val) :=
  l.mergeSort (fun x y => x.1 ≤ y.1)

/-- The reconstruction phase of `merge_all_to_snbt` (lines 373-393):
direct entries in input order, then one list entry per accumulated
base key, each sorted by numeric index. -/
def reconstructData (l : List (String × Val)) : List (String × Val) :=
  let st := l.foldl regroupStep ([], [])
  st.2 ++ st.1.map (fun e => (e.1, Val.lst ((sortPairsByIdx e.2).map Prod.snd)))

/-- Comparison `a ≤ b` on entries as used by
`sorted(reconstructed_data.items())`: Python's stable sort keeps `a`
before `b` unless `b < a` on the keys (dictionary keys are unique, so
the tuple comparison never reaches the values). -/
def keyLe (x y : String × Val) : Bool := !(clistLt y.1.data x.1.data)

/-- Embedding of `sorted(reconstructed_data.items())` (line 397). -/
def sortByKey (l : List (String × Val)) : List (String × Val) := l.mergeSort keyLe

/-- Reconstruction followed by the deterministic key sort
(lines 373-397). -/
def reconstruct (l : List (String × Val)) : List (String × Val) :=
  sortByKey (reconstructData l)

/-- Behaviour of `merge_all_to_snbt` on the combined data: `none`
models "abort without writing an output file" (lines 367-369);
otherwise the sorted reconstructed mapping is escaped
(`escape_string_for_snbt` on each string) and serialized. -/
def mergeAllToSnbt (combined : List (String × Val)) : Option (List (String × Val)) :=
  if combined = [] then none else some (reconstruct combined)

/-! ### The Key Flattener (`split_and_process_all`, lines 89-107) -/

/-- An SNBT language value: a string or an ordered sequence of
strings (the documented domain of the source language file). -/
inductive SnbtVal where
  | str : String → SnbtVal
  | lst : List String → SnbtVal
  deriving DecidableEq

/-- Embedding of `for i, line in enumerate(value, 1):
lang_data[f"{key}{i}"] = unescape_string(str(line))`. -/
def flattenLines (key : String) : Nat → List String → List (String × String)
  | _, [] => []
  | i, v :: vs => (key ++ natStr i, unescape_string v) :: flattenLines key (i + 1) vs

/-- Flattening of a single source entry (lines 91-105). -/
def flattenEntry (flattenSingle : Bool) (key : String) : SnbtVal → List (String × String)
  | .str s => [(key, unescape_string s)]
  | .lst vs =>
    if flattenSingle ∧ vs.length = 1 then [(key, unescape_string vs.headI)]
    else flattenLines key 1 vs

/-- The Key Flattener: builds `lang_data` by OrderedDict assignment
over the source entries in order. -/
def flatten (flattenSingle : Bool) (m : List (String × SnbtVal)) : List (String × String) :=
  m.foldl (fun acc e => (flattenEntry flattenSingle e.1 e.2).foldl
    (fun a p => upsert a p.1 p.2) acc) []

/-- View a flat string-to-string mapping as JSON-loaded data. -/
def toValPairs (l : List (String × String)) : List (String × Val) :=
  l.map (fun e => (e.1, Val.str e.2))

/-- The indexed values accumulated by the Reconstructor for the lines
flattened from index `i` on. -/
def idxVals (i : Nat) : List String → List (Nat × Val)
  | [] => []
  | v :: vs => (i, Val.str (unescape_string v)) :: idxVals (i + 1) vs

/-! ### The Categorizer (`split_and_process_all`, lines 114-146) -/

inductive Category where
  | chapters | quests | tasks | rewards
  | file : String → Category
  | other
  deriving DecidableEq

/-- The configured prefix table `CATEGORIES_TO_FILES` (lines 40-43). -/
def CATEGORIES_TO_FILES : List (String × List String) :=
  [("en_us_chapters.json", ["chapter_group."]),
   ("en_us_reward_tables.json", ["reward_table."])]

/-- The per-entry assignment of lines 122-146: hardcoded prefixes
first, then the configured table in order, first match wins, fallback
"other". -/
def categorize (key : String) : Category :=
  if isPre "chapter.".data key.data then .chapters
  else if isPre "quest.".data key.data then .quests
  else if isPre "task.".data key.data then .tasks
  else if isPre "reward.".data key.data then .rewards
  else
    match CATEGORIES_TO_FILES.find? (fun fp => fp.2.any (fun p => isPre p.data key.data)) with
    | some fp => .file fp.1
    | none => .other

/-! ### The Hierarchical Sorter (`create_sort_key`, lines 175-248) -/

/-- The regex class `[0-9A-F]` of the id patterns. -/
def isHexUpper (c : Char) : Bool := ('0' ≤ c && c ≤ '9') || ('A' ≤ c && c ≤ 'F')

/-- Embedding of `re.match(r'^<pat>([0-9A-F]+)', key)` where `<pat>`
is a literal: the (maximal, nonempty) run of hex characters after the
pattern, together with the remainder of the key. -/
def hexSplit (pat key : List Char) : Option (List Char × List Char) :=
  match afterPre pat key with
  | none => none
  | some tail =>
    let run := tail.takeWhile isHexUpper
    if run = [] then none else some (run, tail.dropWhile isHexUpper)

/-- Embedding of `re.match(r'^<pat>[0-9A-F]+\.', key)` returning the
key suffix after the matched group-0 prefix. -/
def idDotSuffix (pat key : List Char) : Option (List Char) :=
  match hexSplit pat key with
  | some (_, '.' :: rest) => some rest
  | _ => none

/-- The suffix extracted by
`re.match(r'^(?:chapter|quest|task|reward)\.[0-9A-F]+\.(.*)', key)`,
or `''` when it does not match (lines 238-239). -/
def idSuffixAny (key : List Char) : List Char :=
  match idDotSuffix "chapter.".data key with
  | some r => r
  | none =>
    match idDotSuffix "quest.".data key with
    | some r => r
    | none =>
      match idDotSuffix "task.".data key with
      | some r => r
      | none =>
        match idDotSuffix "reward.".data key with
        | some r => r
        | none => []

/-- First index whose suffix is a prefix of the target, defaulting to
the list's length (lines 227-235). -/
def firstMatchIdxAux : List (List Char) → Nat → List Char → Nat
  | [], i, _ => i
  | s :: rest, i, target =>
    if isPre s target then i else firstMatchIdxAux rest (i + 1) target

/-- `SORT_ORDER_CONFIG['chapter.']` (lines 48-51). -/
def chapterOrder : List (List Char) := [".title".data, ".description".data]

/-- `SORT_ORDER_CONFIG['quest.']` (lines 52-56). -/
def questOrder : List (List Char) := [".title".data, ".quest_subtitle".data, ".quest_desc".data]

/-- The custom-priority computation of lines 226-234 for a key whose
configured namespace is `pat` with suffix order `order`. -/
def customFromList (order : List (List Char)) (pat key : List Char) : Nat :=
  match idDotSuffix pat key with
  | none => order.length
  | some suffix => firstMatchIdxAux order 0 ('.' :: suffix)

/-- The 6-tuple produced by `create_sort_key` (line 248). -/
structure SortKey where
  isChapterKey : Nat
  questGroupId : List Char
  typePriority : Nat
  customPriority : Nat
  nonNumericPart : List Char
  numericPart : Nat
  deriving DecidableEq

/-- Natural-sort split of the final suffix segment (lines 237-245). -/
def naturalParts (key : List Char) : List Char × Nat :=
  let suffix := idSuffixAny key
  match splitKey suffix with
  | some (b, n) => (b, n)
  | none => (suffix, 0)

/-- The `task_id → quest_id` / `reward_id → quest_id` lookups
`map.get(id, id)` (lines 215, 222). -/
def lookupD (m : List (String × String)) (k : String) : String :=
  match m.find? (fun e => e.1 == k) with
  | some e => e.2
  | none => k

/-- Embedding of `create_sort_key` (lines 175-248).  The value of the
item is ignored by the source, so the key alone is taken. -/
def createSortKey (tm rm : List (String × String)) (key : String) : SortKey :=
  let kd := key.data
  let np := naturalParts kd
  let dflt : SortKey :=
    { isChapterKey := 1, questGroupId := kd, typePriority := 99,
      customPriority := 99, nonNumericPart := np.1, numericPart := np.2 }
  if isPre "chapter.".data kd then
    match hexSplit "chapter.".data kd with
    | some (run, _) =>
      { isChapterKey := 0, questGroupId := run, typePriority := 0,
        customPriority := customFromList chapterOrder "chapter.".data kd,
        nonNumericPart := np.1, numericPart := np.2 }
    | none => dflt
  else if isPre "quest.".data kd then
    match hexSplit "quest.".data kd with
    | some (run, _) =>
      { isChapterKey := 1, questGroupId := run, typePriority := 0,
        customPriority := customFromList questOrder "quest.".data kd,
        nonNumericPart := np.1, numericPart := np.2 }
    | none => dflt
  else if isPre "task.".data kd then
    match hexSplit "task.".data kd with
    | some (run, _) =>
      { isChapterKey := 1, questGroupId := (lookupD tm ⟨run⟩).data, typePriority := 1,
        customPriority := 99, nonNumericPart := np.1, numericPart := np.2 }
    | none => dflt
  else if isPre "reward.".data kd then
    match hexSplit "reward.".data kd with
    | some (run, _) =>
      { isChapterKey := 1, questGroupId := (lookupD rm ⟨run⟩).data, typePriority := 2,
        customPriority := 99, nonNumericPart := np.1, numericPart := np.2 }
    | none => dflt
  else dflt

/-- Three-way comparison on `Nat`. -/
def natCmp (a b : Nat) : Ordering := if a < b then .lt else if b < a then .gt else .eq

/-- Three-way comparison on Python strings. -/
def clistCmp (a b : List Char) : Ordering :=
  if clistLt a b then .lt else if clistLt b a then .gt else .eq

/-- Python's lexicographic `<` on the 6-tuples, as a three-way
comparison. -/
def SortKey.cmp (a b : SortKey) : Ordering :=
  (natCmp a.isChapterKey b.isChapterKey).then
  ((clistCmp a.questGroupId b.questGroupId).then
  ((natCmp a.typePriority b.typePriority).then
  ((natCmp a.customPriority b.customPriority).then
  ((clistCmp a.nonNumericPart b.nonNumericPart).then
  (natCmp a.numericPart b.numericPart)))))

def sortKeyLt (a b : SortKey) : Bool := SortKey.cmp a b == .lt

/-- Laws making a three-way comparison behave like a (possibly
non-antisymmetric) linear preorder; enough to justify sorting. -/
structure CmpLawful {α : Type} (f : α → α → Ordering) : Prop where
  swap : ∀ a b, f b a = (f a b).swap
  lt_trans : ∀ {a b c}, f a b = .lt → f b c = .lt → f a c = .lt
  lt_of_lt_of_eq : ∀ {a b c}, f a b = .lt → f b c = .eq → f a c = .lt
  lt_of_eq_of_lt : ∀ {a b c}, f a b = .eq → f b c = .lt → f a c = .lt
  eq_trans : ∀ {a b c}, f a b = .eq → f b c = .eq → f a c = .eq

/-- Sort comparison of lines 328-331: Python's stable sort keeps `x`
before `y` unless `y`'s sort key is strictly smaller. -/
def entryLe (tm rm : List (String × String)) (x y : String × Val) : Bool :=
  !(sortKeyLt (createSortKey tm rm y.1) (createSortKey tm rm x.1))

/-- Embedding of `sorted(chapter_output_content.items(), key=...)`. -/
def sortEntries (tm rm : List (String × String)) (l : List (String × Val)) :
    List (String × Val) :=
  l.mergeSort (entryLe tm rm)

/-! ### The Hierarchy Linker (`process_chapter_quests`, lines 251-343) -/

/-- A quest node of a chapter document; `""` models a missing or
falsy `id`. -/
structure QuestDef where
  id : String
  tasks : List String
  rewards : List String

/-- A chapter document `{id, quests: [...]}`. -/
structure ChapterDoc where
  id : String
  quests : List QuestDef

/-- Map contributions of a single quest (lines 269-275). -/
def addQuestMaps (acc : List (String × String) × List (String × String)) (q : QuestDef) :
    List (String × String) × List (String × String) :=
  if q.id = "" then acc
  else
    (q.tasks.foldl (fun m t => if t = "" then m else upsert m t q.id) acc.1,
     q.rewards.foldl (fun m r => if r = "" then m else upsert m r q.id) acc.2)

/-- The `task → quest` and `reward → quest` maps built over all
chapter documents (lines 261-278). -/
def buildMaps (docs : List ChapterDoc) :
    List (String × String) × List (String × String) :=
  docs.foldl (fun acc d => d.quests.foldl addQuestMaps acc) ([], [])

/-- Collection of the entries of `src` whose key starts with `pat`
into the chapter output dict (lines 295-297, 305-307, 313-315,
321-323). -/
def addMatching (acc : List (String × Val)) (src : List (String × Val)) (pat : String) :
    List (String × Val) :=
  src.foldl (fun a e => if isPre pat.data e.1.data then upsert a e.1 e.2 else a) acc

/-- The chapter-output collection of lines 291-323: chapter entries
by `chapter.<id>` (no trailing dot), then per quest its `quest.`,
`task.` and `reward.` entries. -/
def collectChapter (doc : ChapterDoc) (chLang qLang tLang rLang : List (String × Val)) :
    List (String × Val) :=
  let acc := addMatching [] chLang ("chapter." ++ doc.id)
  doc.quests.foldl (fun acc q =>
    if q.id = "" then acc
    else
      let acc := addMatching acc qLang ("quest." ++ q.id ++ ".")
      let acc := q.tasks.foldl
        (fun a t => if t = "" then a else addMatching a tLang ("task." ++ t ++ ".")) acc
      q.rewards.foldl
        (fun a r => if r = "" then a else addMatching a rLang ("reward." ++ r ++ ".")) acc) acc

/-- Per-chapter processing (lines 284-332): `none` when the document
has a falsy id or collects no entries (no file written); otherwise
the sorted chapter output. -/
def processChapter (tm rm : List (String × String)) (doc : ChapterDoc)
    (chLang qLang tLang rLang : List (String × Val)) : Option (List (String × Val)) :=
  if doc.id = "" then none
  else
    let content := collectChapter doc chLang qLang tLang rLang
    if content = [] then none else some (sortEntries tm rm content)

/-! ### para2github.py -/

/-- A translation item returned by the per-file endpoint; `none`
models a missing field (`item.get(..., "")`). -/
structure TransItem where
  key : String
  translation : Option String
  original : Option String
  stage : Int

/-- The per-item output value of `translate` (lines 41-49):
`original if item["stage"] in [0, -1, 2] or not translation else
translation`. -/
def itemValue (it : TransItem) : String :=
  let translation := it.translation.getD ""
  let original := it.original.getD ""
  if it.stage = 0 ∨ it.stage = -1 ∨ it.stage = 2 ∨ translation = "" then original
  else translation

/-- Embedding of `translate` (lines 28-50): the parallel key and
value lists. -/
def translateLists (items : List TransItem) : List String × List String :=
  (items.map (fun it => it.key), items.map itemValue)

/-- Embedding of `re.sub(r'\\"', '\"', value)` (line 117). -/
def subBackslashQuote (s : String) : String := ⟨replace2 '\\' '"' ['"'] s.data⟩

/-- Embedding of `value.replace(" ", " ")` (line 121). -/
def replaceSpaces (s : String) : String := ⟨replace1 ' ' ['\u00A0'] s.data⟩

/-- The per-value post-processing of `process_translation` (lines
113-124): undo quote escapes; in quest files, replace spaces by
non-breaking spaces unless the value mentions "image". -/
def processValue (path value : String) : String :=
  let isQuestFile := containsStr path "quests"
  let v := subBackslashQuote value
  if isQuestFile && !(containsStr v "image") then replaceSpaces v else v

/-- The dictionary built by `process_translation` (lines 106-126)
from the initial source dict and the fetched key/value pairs. -/
def processTranslation (path : String) (init kvs : List (String × String)) :
    List (String × String) :=
  kvs.foldl (fun d e => upsert d e.1 (processValue path e.2)) init

/-! ## Helper lemmas -/

theorem replace1_append (p : Char) (rep a b : List Char) :
    replace1 p rep (a ++ b) = replace1 p rep a ++ replace1 p rep b := by
  induction a with
  | nil => simp [replace1]
  | cons c a ih => simp [replace1, ih]

theorem escapeChars_cons (c : Char) (l : List Char) :
    escapeChars (c :: l) = encChar c ++ escapeChars l := by
  by_cases hb : c = '\\'
  · subst hb
    simp [escapeChars, replace1, encChar]
  · by_cases hq : c = '"'
    · subst hq
      simp [escapeChars, replace1, encChar, hb]
    · simp [escapeChars, replace1, encChar, hb, hq]

theorem escapeChars_head_ne_quote (l : List Char) :
    (escapeChars l).head? ≠ some '"' := by
  cases l with
  | nil => simp [escapeChars, replace1]
  | cons c l =>
    rw [escapeChars_cons]
    by_cases hb : c = '\\'
    · simp [encChar, hb]
    · by_cases hq : c = '"'
      · simp [encChar, hb, hq]
      · simp [encChar, hb, hq]

theorem replace2_quote_backslash_cons (t : List Char)
    (h : t.head? ≠ some '"') :
    replace2 '\\' '"' ['"'] ('\\' :: t) = '\\' :: replace2 '\\' '"' ['"'] t := by
  cases t with
  | nil => simp [replace2]
  | cons c u =>
    have hc : c ≠ '"' := by
      intro hc
      exact h (by simp [hc])
    simp [replace2, hc]

theorem replace2_quote_escapeChars (l : List Char) :
    replace2 '\\' '"' ['"'] (escapeChars l) = encodeMid l := by
  induction l with
  | nil => simp [escapeChars, replace1, replace2, encodeMid]
  | cons c l ih =>
    rw [escapeChars_cons]
    by_cases hb : c = '\\'
    · subst hb
      show replace2 '\\' '"' ['"'] ('\\' :: '\\' :: escapeChars l) = _
      rw [show ('\\' :: '\\' :: escapeChars l) = '\\' :: ('\\' :: escapeChars l) from rfl]
      rw [replace2]
      simp only [show ¬('\\' = '\\' ∧ '\\' = '"') by simp, if_false]
      rw [replace2_quote_backslash_cons _ (escapeChars_head_ne_quote l)]
      simp [encodeMid, ih]
    · by_cases hq : c = '"'
      · subst hq
        show replace2 '\\' '"' ['"'] ('\\' :: '"' :: escapeChars l) = _
        rw [replace2]
        simp [encodeMid, ih, hb]
      · rw [show encChar c = [c] by simp [encChar, hb, hq], List.singleton_append]
        cases l with
        | nil => simp [escapeChars, replace1, replace2, encodeMid, hb, hq]
        | cons d l2 =>
          rw [escapeChars_cons]
          have hd : ∃ h2 t2, encChar d ++ escapeChars l2 = h2 :: t2 := by
            by_cases hdb : d = '\\'
            · exact ⟨'\\', '\\' :: escapeChars l2, by simp [encChar, hdb]⟩
            · by_cases hdq : d = '"'
              · exact ⟨'\\', '"' :: escapeChars l2, by simp [encChar, hdb, hdq]⟩
              · exact ⟨d, escapeChars l2, by simp [encChar, hdb, hdq]⟩
          obtain ⟨h2, t2, ht⟩ := hd
          rw [ht, replace2]
          simp only [show ¬(c = '\\' ∧ h2 = '"') by exact fun hcc => hb hcc.1, if_false]
          rw [← ht, ← escapeChars_cons]
          simp [encodeMid, ih, hb]

theorem replace2_backslash_encodeMid (l : List Char) :
    replace2 '\\' '\\' ['\\'] (encodeMid l) = l := by
  induction l with
  | nil => simp [encodeMid, replace2]
  | cons c l ih =>
    by_cases hb : c = '\\'
    · subst hb
      show replace2 '\\' '\\' ['\\'] ('\\' :: '\\' :: encodeMid l) = _
      rw [replace2]
      simp [ih]
    · show replace2 '\\' '\\' ['\\'] ((if c = '\\' then ['\\', '\\'] else [c]) ++ encodeMid l) = _
      rw [if_neg hb]
      cases l with
      | nil => simp [encodeMid, replace2]
      | cons d l2 =>
        have hd : ∃ h2 t2, encodeMid (d :: l2) = h2 :: t2 := by
          by_cases hdb : d = '\\'
          · exact ⟨'\\', '\\' :: encodeMid l2, by simp [encodeMid, hdb]⟩
          · exact ⟨d, encodeMid l2, by simp [encodeMid, hdb]⟩
        obtain ⟨h2, t2, ht⟩ := hd
        rw [ht]
        show replace2 '\\' '\\' ['\\'] (c :: h2 :: t2) = _
        rw [replace2]
        simp only [show ¬(c = '\\' ∧ h2 = '\\') by exact fun hcc => hb hcc.1, if_false]
        rw [← ht, ih]

theorem unescapeChars_escapeChars (l : List Char) :
    unescapeChars (escapeChars l) = l := by
  rw [unescapeChars, replace2_quote_escapeChars, replace2_backslash_encodeMid]

theorem foldr_ofDigits (L : List Nat) :
    L.foldr (fun d a => a * 10 + d) 0 = Nat.ofDigits 10 L := by
  induction L with
  | nil => simp [Nat.ofDigits]
  | cons d L ih =>
    simp [Nat.ofDigits_cons, ih]
    ring

theorem digitVal_ofNat {d : Nat} (h : d < 10) :
    digitVal (Char.ofNat (48 + d)) = d := by
  interval_cases d <;> decide

theorem isDigit_ofNat {d : Nat} (h : d < 10) :
    (Char.ofNat (48 + d)).isDigit = true := by
  interval_cases d <;> decide

theorem foldr_digitVal (L : List Nat) (hlt : ∀ d ∈ L, d < 10) :
    L.foldr (fun d a => a * 10 + digitVal (Char.ofNat (48 + d))) 0
      = L.foldr (fun d a => a * 10 + d) 0 := by
  induction L with
  | nil => rfl
  | cons d L ih =>
    simp only [List.foldr_cons]
    rw [ih (fun x hx => hlt x (List.mem_cons_of_mem _ hx)),
      digitVal_ofNat (hlt d (List.mem_cons_self _ _))]

theorem natDigitsAux_eq_digits : ∀ (fuel n : Nat), n ≤ fuel →
    natDigitsAux fuel n = (Nat.digits 10 n).reverse.map (fun d => Char.ofNat (48 + d)) := by
  intro fuel
  induction fuel with
  | zero =>
    intro n hn
    interval_cases n
    simp [natDigitsAux]
  | succ fuel ih =>
    intro n hn
    cases n with
    | zero => simp [natDigitsAux]
    | succ m =>
      rw [natDigitsAux, Nat.digits_def' (by norm_num : (1 : Nat) < 10) (Nat.succ_pos m)]
      rw [ih ((m + 1) / 10)
        (Nat.le_of_lt_succ (Nat.lt_of_lt_of_le
          (Nat.div_lt_self (Nat.succ_pos m) (by norm_num)) hn))]
      simp

theorem natDigits_eq_digits {n : Nat} (h : n ≠ 0) :
    natDigits n = (Nat.digits 10 n).reverse.map (fun d => Char.ofNat (48 + d)) := by
  rw [natDigits, if_neg h, natDigitsAux_eq_digits n n le_rfl]

theorem parseDigits_natDigits (n : Nat) : parseDigits (natDigits n) = n := by
  by_cases h : n = 0
  · subst h
    decide
  · rw [natDigits_eq_digits h, parseDigits, List.foldl_map, List.foldl_reverse]
    rw [foldr_digitVal _ (fun d hd => Nat.digits_lt_base (by norm_num) hd),
      foldr_ofDigits, Nat.ofDigits_digits]

theorem natDigits_ne_nil (n : Nat) : natDigits n ≠ [] := by
  by_cases h : n = 0
  · subst h; decide
  · rw [natDigits_eq_digits h]
    simp [Nat.digits_ne_nil_iff_ne_zero, h]

theorem natDigits_all_digit (n : Nat) : ∀ c ∈ natDigits n, c.isDigit = true := by
  by_cases h : n = 0
  · subst h; decide
  · rw [natDigits_eq_digits h]
    intro c hc
    simp only [List.mem_map, List.mem_reverse] at hc
    obtain ⟨d, hd, rfl⟩ := hc
    exact isDigit_ofNat (Nat.digits_lt_base (by norm_num) hd)

theorem takeWhile_append_of_all {p : Char → Bool} {l1 l2 : List Char}
    (h : ∀ a ∈ l1, p a = true) :
    (l1 ++ l2).takeWhile p = l1 ++ l2.takeWhile p := by
  induction l1 with
  | nil => simp
  | cons a l1 ih =>
    simp only [List.cons_append, List.takeWhile_cons, h a (List.mem_cons_self _ _),
      if_true]
    rw [ih (fun x hx => h x (List.mem_cons_of_mem _ hx))]

theorem dropWhile_append_of_all {p : Char → Bool} {l1 l2 : List Char}
    (h : ∀ a ∈ l1, p a = true) :
    (l1 ++ l2).dropWhile p = l2.dropWhile p := by
  induction l1 with
  | nil => simp
  | cons a l1 ih =>
    simp only [List.cons_append, List.dropWhile_cons, h a (List.mem_cons_self _ _)]
    exact ih (fun x hx => h x (List.mem_cons_of_mem _ hx))

theorem dropWhile_eq_self_of_takeWhile_nil {p : Char → Bool} {l : List Char}
    (h : l.takeWhile p = []) : l.dropWhile p = l := by
  cases l with
  | nil => rfl
  | cons a l =>
    by_cases ha : p a = true
    · simp [List.takeWhile_cons, ha] at h
    · simp [List.dropWhile_cons, ha]

theorem splitKey_eq_none {l : List Char} (h : noDigitSuffix l) : splitKey l = none := by
  simp only [splitKey]
  rw [h]
  simp

theorem splitKey_append_digits {b d : List Char}
    (hb : noDigitSuffix b) (hd : d ≠ []) (hall : ∀ c ∈ d, c.isDigit = true) :
    splitKey (b ++ d) = some (b, parseDigits d) := by
  have hrev : (b ++ d).reverse = d.reverse ++ b.reverse := by
    simp
  have hall2 : ∀ c ∈ d.reverse, Char.isDigit c = true := by
    intro c hc; exact hall c (List.mem_reverse.mp hc)
  rw [splitKey]
  simp only [hrev]
  rw [takeWhile_append_of_all hall2, hb, List.append_nil,
    dropWhile_append_of_all hall2, dropWhile_eq_self_of_takeWhile_nil hb]
  rw [if_neg (by simp [hd]), List.reverse_reverse, List.reverse_reverse]

theorem splitKey_append_natDigits {b : List Char} (hb : noDigitSuffix b) (n : Nat) :
    splitKey (b ++ natDigits n) = some (b, n) := by
  rw [splitKey_append_digits hb (natDigits_ne_nil n) (natDigits_all_digit n),
    parseDigits_natDigits]

theorem takeWhile_dropWhile_nil (p : Char → Bool) (l : List Char) :
    (l.dropWhile p).takeWhile p = [] := by
  induction l with
  | nil => rfl
  | cons a l ih =>
    by_cases ha : p a = true
    · simpa [List.dropWhile_cons, ha] using ih
    · simp [List.dropWhile_cons, ha, List.takeWhile_cons]

theorem splitKey_base_noDigit {l b : List Char} {n : Nat}
    (h : splitKey l = some (b, n)) : noDigitSuffix b := by
  simp only [splitKey] at h
  by_cases hds : l.reverse.takeWhile Char.isDigit = []
  · rw [if_pos hds] at h
    exact absurd h (by simp)
  · rw [if_neg hds] at h
    have hb : b = (l.reverse.dropWhile Char.isDigit).reverse := by
      have := (Option.some.injEq _ _).mp h
      exact (congrArg Prod.fst this).symm
    rw [noDigitSuffix, hb, List.reverse_reverse]
    exact takeWhile_dropWhile_nil _ _

theorem clistLt_trans : ∀ {a b c : List Char},
    clistLt a b = true → clistLt b c = true → clistLt a c = true
  | _, _, [], _, h2 => by simp [clistLt] at h2
  | _, [], _ :: _, h1, _ => by simp [clistLt] at h1
  | [], _ :: _, _ :: _, _, _ => by simp [clistLt]
  | a :: as, b :: bs, c :: cs, h1, h2 => by
    simp only [clistLt, Bool.or_eq_true, Bool.and_eq_true, decide_eq_true_eq,
      beq_iff_eq] at h1 h2 ⊢
    rcases h1 with h1 | ⟨rfl, h1⟩
    · rcases h2 with h2 | ⟨rfl, h2⟩
      · exact Or.inl (lt_trans h1 h2)
      · exact Or.inl h1
    · rcases h2 with h2 | ⟨rfl, h2⟩
      · exact Or.inl h2
      · exact Or.inr ⟨rfl, clistLt_trans h1 h2⟩

theorem clistLt_connex : ∀ {a b : List Char},
    clistLt a b = false → clistLt b a = false → a = b
  | [], [], _, _ => rfl
  | [], _ :: _, h1, _ => by simp [clistLt] at h1
  | _ :: _, [], _, h2 => by simp [clistLt] at h2
  | a :: as, b :: bs, h1, h2 => by
    simp only [clistLt, Bool.or_eq_false_iff, Bool.and_eq_false_iff,
      decide_eq_false_iff_not, beq_eq_false_iff_ne, ne_eq, not_lt] at h1 h2
    have hab : a = b := le_antisymm h2.1 h1.1
    subst hab
    rcases h1.2 with h | h
    · exact absurd rfl h
    · rcases h2.2 with h' | h'
      · exact absurd rfl h'
      · rw [clistLt_connex h h']

theorem clistLt_irrefl : ∀ (a : List Char), clistLt a a = false := by
  intro a
  induction a with
  | nil => rfl
  | cons x xs ih => simp [clistLt, ih]

theorem sorted_perm_eq {α : Type} (le : α → α → Bool) :
    ∀ (l1 l2 : List α), l1.Perm l2 →
    l1.Pairwise (fun a b => le a b = true) →
    l2.Pairwise (fun a b => le a b = true) →
    (∀ a ∈ l1, ∀ b ∈ l1, le a b = true → le b a = true → a = b) →
    l1 = l2
  | [], l2, hp, _, _, _ => by rw [hp.symm.eq_nil]
  | a :: as, [], hp, _, _, _ => by
    have := hp.eq_nil
    exact absurd this (by simp)
  | a :: as, b :: bs, hp, hs1, hs2, hanti => by
    have hab : a = b := by
      by_cases hne : a = b
      · exact hne
      · have hbmem : b ∈ a :: as := hp.mem_iff.mpr (List.mem_cons_self _ _)
        have hamem : a ∈ b :: bs := hp.mem_iff.mp (List.mem_cons_self _ _)
        have hb2 : b ∈ as := by
          rcases List.mem_cons.mp hbmem with h | h
          · exact absurd h.symm hne
          · exact h
        have ha2 : a ∈ bs := by
          rcases List.mem_cons.mp hamem with h | h
          · exact absurd h hne
          · exact h
        have h1 : le a b = true := (List.pairwise_cons.mp hs1).1 b hb2
        have h2 : le b a = true := (List.pairwise_cons.mp hs2).1 a ha2
        exact absurd (hanti a (List.mem_cons_self _ _) b hbmem h1 h2) hne
    subst hab
    have hperm : as.Perm bs := hp.cons_inv
    have := sorted_perm_eq le as bs hperm (List.pairwise_cons.mp hs1).2
      (List.pairwise_cons.mp hs2).2
      (fun x hx y hy => hanti x (List.mem_cons_of_mem _ hx) y (List.mem_cons_of_mem _ hy))
    rw [this]

theorem clistLt_asymm {a b : List Char} (h : clistLt a b = true) :
    clistLt b a = false := by
  cases hba : clistLt b a with
  | false => rfl
  | true =>
    have := clistLt_trans h hba
    rw [clistLt_irrefl] at this
    exact absurd this (by simp)

theorem keyLe_total (a b : String × Val) : (keyLe a b || keyLe b a) = true := by
  rw [keyLe, keyLe]
  cases h : clistLt b.1.data a.1.data with
  | false => simp
  | true => rw [clistLt_asymm h]; simp

theorem keyLe_trans (a b c : String × Val) :
    keyLe a b = true → keyLe b c = true → keyLe a c = true := by
  rw [keyLe, keyLe, keyLe]
  intro h1 h2
  simp only [Bool.not_eq_true'] at h1 h2 ⊢
  cases hca : clistLt c.1.data a.1.data with
  | false => rfl
  | true =>
    cases hbc : clistLt b.1.data c.1.data with
    | true => rw [clistLt_trans hbc hca] at h1; exact h1
    | false =>
      have hbceq : c.1.data = b.1.data := clistLt_connex h2 hbc
      rw [hbceq] at hca
      rw [hca] at h1
      exact h1

theorem appendMulti_length_ge (m : List (String × List (Nat × Val))) (k : String)
    (p : Nat × Val) : m.length ≤ (appendMulti m k p).length := by
  rw [appendMulti]
  split <;> simp

theorem regroup_sum_ge : ∀ (l : List (String × Val))
    (t0 : List (String × List (Nat × Val))) (d0 : List (String × Val)),
    t0.length + d0.length ≤
      (l.foldl regroupStep (t0, d0)).1.length + (l.foldl regroupStep (t0, d0)).2.length := by
  intro l
  induction l with
  | nil => intro t0 d0; simp
  | cons e rest ih =>
    intro t0 d0
    rw [List.foldl_cons]
    rcases hsp : splitKey e.1.data with _ | ⟨b, n⟩
    · have hstep : regroupStep (t0, d0) e = (t0, d0 ++ [e]) := by
        simp [regroupStep, hsp]
      rw [hstep]
      have := ih t0 (d0 ++ [e])
      simp only [List.length_append, List.length_singleton] at this
      omega
    · have hstep : regroupStep (t0, d0) e = (appendMulti t0 ⟨b⟩ (n, e.2), d0) := by
        simp [regroupStep, hsp]
      rw [hstep]
      have h1 := appendMulti_length_ge t0 ⟨b⟩ (n, e.2)
      have := ih (appendMulti t0 ⟨b⟩ (n, e.2)) d0
      omega

theorem reconstructData_length (l : List (String × Val)) :
    (reconstructData l).length =
      (l.foldl regroupStep ([], [])).1.length + (l.foldl regroupStep ([], [])).2.length := by
  rw [reconstructData]
  simp [Nat.add_comm]

theorem reconstruct_ne_nil {l : List (String × Val)} (h : l ≠ []) :
    reconstruct l ≠ [] := by
  obtain ⟨e, rest, rfl⟩ := List.exists_cons_of_ne_nil h
  intro hc
  have hlen : (reconstruct (e :: rest)).length = 0 := by rw [hc]; rfl
  rw [reconstruct, sortByKey, List.length_mergeSort, reconstructData_length] at hlen
  rw [List.foldl_cons] at hlen
  rcases hsp : splitKey e.1.data with _ | ⟨b, n⟩
  · have hstep : regroupStep ([], []) e = ([], [e]) := by simp [regroupStep, hsp]
    rw [hstep] at hlen
    have := regroup_sum_ge rest [] [e]
    simp only [List.length_nil, List.length_singleton] at this
    omega
  · have hstep : regroupStep ([], []) e = ([(⟨b⟩, [(n, e.2)])], []) := by
      simp [regroupStep, hsp, appendMulti]
    rw [hstep] at hlen
    have := regroup_sum_ge rest [(⟨b⟩, [(n, e.2)])] []
    simp only [List.length_nil, List.length_singleton] at this
    omega

theorem regroup_no_match : ∀ (l : List (String × Val))
    (t0 : List (String × List (Nat × Val))) (d0 : List (String × Val)),
    (∀ e ∈ l, splitKey e.1.data = none) →
    l.foldl regroupStep (t0, d0) = (t0, d0 ++ l) := by
  intro l
  induction l with
  | nil => intro t0 d0 _; simp
  | cons e rest ih =>
    intro t0 d0 h
    rw [List.foldl_cons,
      show regroupStep (t0, d0) e = (t0, d0 ++ [e]) by
        simp [regroupStep, h e (List.mem_cons_self _ _)],
      ih t0 (d0 ++ [e]) (fun x hx => h x (List.mem_cons_of_mem _ hx))]
    simp

theorem appendMulti_self_mem (m : List (String × List (Nat × Val))) (k : String)
    (p : Nat × Val) :
    ∃ items, (k, items) ∈ appendMulti m k p ∧ p ∈ items := by
  rw [appendMulti]
  by_cases h : m.any (fun e => e.1 == k) = true
  · rw [if_pos h]
    obtain ⟨e, hem, hk⟩ := List.any_eq_true.mp h
    have hk' : e.1 = k := by simpa using hk
    refine ⟨e.2 ++ [p], ?_, by simp⟩
    have himg : (if e.1 == k then (e.1, e.2 ++ [p]) else e) = (k, e.2 ++ [p]) := by
      rw [if_pos (by simpa using hk'), hk']
    rw [← himg]
    exact List.mem_map_of_mem _ hem
  · rw [if_neg h]
    exact ⟨[p], by simp, by simp⟩

theorem appendMulti_mem_preserve {m : List (String × List (Nat × Val))} {b : String}
    {items : List (Nat × Val)} (hmem : (b, items) ∈ m) (k : String) (p : Nat × Val) :
    ∃ ex, (b, items ++ ex) ∈ appendMulti m k p := by
  rw [appendMulti]
  by_cases h : m.any (fun e => e.1 == k) = true
  · rw [if_pos h]
    by_cases hbk : b = k
    · refine ⟨[p], ?_⟩
      have himg : (if (b, items).1 == k then ((b, items).1, (b, items).2 ++ [p])
          else (b, items)) = (b, items ++ [p]) := by
        simp [hbk]
      rw [← himg]
      exact List.mem_map_of_mem _ hmem
    · refine ⟨[], ?_⟩
      have himg : (if (b, items).1 == k then ((b, items).1, (b, items).2 ++ [p])
          else (b, items)) = (b, items ++ []) := by
        simp [hbk]
      rw [← himg]
      exact List.mem_map_of_mem _ hmem
  · rw [if_neg h]
    exact ⟨[], by simp [hmem]⟩

theorem regroup_temp_extend : ∀ (l : List (String × Val))
    (t0 : List (String × List (Nat × Val))) (d0 : List (String × Val))
    (b : String) (items : List (Nat × Val)),
    (b, items) ∈ t0 →
    ∃ ex, (b, items ++ ex) ∈ (l.foldl regroupStep (t0, d0)).1 := by
  intro l
  induction l with
  | nil => intro t0 d0 b items h; exact ⟨[], by simpa using h⟩
  | cons e rest ih =>
    intro t0 d0 b items h
    rw [List.foldl_cons]
    rcases hsp : splitKey e.1.data with _ | ⟨bb, n⟩
    · rw [show regroupStep (t0, d0) e = (t0, d0 ++ [e]) from by simp [regroupStep, hsp]]
      exact ih t0 (d0 ++ [e]) b items h
    · rw [show regroupStep (t0, d0) e = (appendMulti t0 ⟨bb⟩ (n, e.2), d0) from by
        simp [regroupStep, hsp]]
      obtain ⟨ex1, h1⟩ := appendMulti_mem_preserve h ⟨bb⟩ (n, e.2)
      obtain ⟨ex2, h2⟩ := ih _ d0 b (items ++ ex1) h1
      exact ⟨ex1 ++ ex2, by rwa [List.append_assoc] at h2⟩

theorem regroup_temp_mem : ∀ (l : List (String × Val))
    (t0 : List (String × List (Nat × Val))) (d0 : List (String × Val))
    (k : String) (v : Val) (b : List Char) (n : Nat),
    (k, v) ∈ l → splitKey k.data = some (b, n) →
    ∃ items, ((⟨b⟩ : String), items) ∈ (l.foldl regroupStep (t0, d0)).1 ∧ (n, v) ∈ items := by
  intro l
  induction l with
  | nil => intro t0 d0 k v b n h _; simp at h
  | cons e rest ih =>
    intro t0 d0 k v b n hmem hsp
    rw [List.foldl_cons]
    rcases List.mem_cons.mp hmem with heq | hmem2
    · rw [← heq, regroupStep]
      simp only [hsp]
      obtain ⟨items0, hin, hp⟩ := appendMulti_self_mem t0 ⟨b⟩ (n, v)
      obtain ⟨ex, hex⟩ := regroup_temp_extend rest _ d0 ⟨b⟩ items0 hin
      exact ⟨items0 ++ ex, hex, List.mem_append_left _ hp⟩
    · rcases hspe : splitKey e.1.data with _ | ⟨bb, nn⟩
      · rw [show regroupStep (t0, d0) e = (t0, d0 ++ [e]) from by simp [regroupStep, hspe]]
        exact ih t0 (d0 ++ [e]) k v b n hmem2 hsp
      · rw [show regroupStep (t0, d0) e = (appendMulti t0 ⟨bb⟩ (nn, e.2), d0) from by
          simp [regroupStep, hspe]]
        exact ih _ d0 k v b n hmem2 hsp

theorem appendMulti_keys_sub {m : List (String × List (Nat × Val))} {k : String}
    {p : Nat × Val} :
    ∀ e ∈ appendMulti m k p, e.1 ∈ m.map Prod.fst ∨ e.1 = k := by
  intro e he
  rw [appendMulti] at he
  by_cases h : m.any (fun x => x.1 == k) = true
  · rw [if_pos h] at he
    obtain ⟨x, hx, hxe⟩ := List.mem_map.mp he
    left
    have : e.1 = x.1 := by
      rw [← hxe]
      by_cases hxk : (x.1 == k) = true
      · rw [if_pos hxk]
      · rw [if_neg hxk]
    rw [this]
    exact List.mem_map_of_mem _ hx
  · rw [if_neg h] at he
    rcases List.mem_append.mp he with h1 | h2
    · exact Or.inl (List.mem_map_of_mem _ h1)
    · right
      have : e = (k, [p]) := by simpa using h2
      rw [this]

theorem regroup_temp_base_keys : ∀ (l : List (String × Val))
    (t0 : List (String × List (Nat × Val))) (d0 : List (String × Val)),
    (∀ key ∈ t0.map Prod.fst, noDigitSuffix key.data) →
    ∀ key ∈ (l.foldl regroupStep (t0, d0)).1.map Prod.fst, noDigitSuffix key.data := by
  intro l
  induction l with
  | nil => intro t0 d0 h; simpa using h
  | cons e rest ih =>
    intro t0 d0 h
    rw [List.foldl_cons]
    rcases hsp : splitKey e.1.data with _ | ⟨bb, n⟩
    · rw [show regroupStep (t0, d0) e = (t0, d0 ++ [e]) from by simp [regroupStep, hsp]]
      exact ih t0 (d0 ++ [e]) h
    · rw [show regroupStep (t0, d0) e = (appendMulti t0 ⟨bb⟩ (n, e.2), d0) from by
        simp [regroupStep, hsp]]
      apply ih
      intro key hkey
      obtain ⟨x, hx, hxk⟩ := List.mem_map.mp hkey
      rcases appendMulti_keys_sub x hx with hold | hnew
      · exact hxk ▸ h x.1 hold
      · rw [← hxk, hnew]
        exact splitKey_base_noDigit hsp

theorem regroup_direct_none : ∀ (l : List (String × Val))
    (t0 : List (String × List (Nat × Val))) (d0 : List (String × Val)),
    (∀ e ∈ d0, splitKey e.1.data = none) →
    ∀ e ∈ (l.foldl regroupStep (t0, d0)).2, splitKey e.1.data = none := by
  intro l
  induction l with
  | nil => intro t0 d0 h; simpa using h
  | cons e rest ih =>
    intro t0 d0 h
    rw [List.foldl_cons]
    rcases hsp : splitKey e.1.data with _ | ⟨bb, n⟩
    · rw [show regroupStep (t0, d0) e = (t0, d0 ++ [e]) from by simp [regroupStep, hsp]]
      apply ih
      intro x hx
      rcases List.mem_append.mp hx with h1 | h2
      · exact h x h1
      · have : x = e := by simpa using h2
        rw [this]
        exact hsp
    · rw [show regroupStep (t0, d0) e = (appendMulti t0 ⟨bb⟩ (n, e.2), d0) from by
        simp [regroupStep, hsp]]
      exact ih _ d0 h

theorem string_data_append (s t : String) : (s ++ t).data = s.data ++ t.data := rfl

theorem natStr_inj {i j : Nat} (h : natStr i = natStr j) : i = j := by
  have hd : natDigits i = natDigits j := congrArg String.data h
  have := parseDigits_natDigits i
  rw [hd, parseDigits_natDigits j] at this
  exact this.symm

theorem splitKey_flatten_key {k : String} (hk : noDigitSuffix k.data) (i : Nat) :
    splitKey (k ++ natStr i).data = some (k.data, i) := by
  rw [string_data_append]
  exact splitKey_append_natDigits hk i

theorem flattenLines_mem_fst {k : String} :
    ∀ {vs : List String} {i : Nat} (e : String × String),
    e ∈ flattenLines k i vs → ∃ j, i ≤ j ∧ e.1 = k ++ natStr j := by
  intro vs
  induction vs with
  | nil => intro i e h; simp [flattenLines] at h
  | cons v vs ih =>
    intro i e h
    rw [flattenLines] at h
    rcases List.mem_cons.mp h with h1 | h2
    · exact ⟨i, le_rfl, by rw [h1]⟩
    · obtain ⟨j, hij, hj⟩ := ih e h2
      exact ⟨j, Nat.le_of_succ_le hij, hj⟩

theorem flattenLines_fst_nodup (k : String) :
    ∀ (vs : List String) (i : Nat), ((flattenLines k i vs).map Prod.fst).Nodup := by
  intro vs
  induction vs with
  | nil => intro i; simp [flattenLines]
  | cons v vs ih =>
    intro i
    rw [flattenLines]
    simp only [List.map_cons, List.nodup_cons]
    refine ⟨?_, ih (i + 1)⟩
    intro hmem
    obtain ⟨e, he, hek⟩ := List.mem_map.mp hmem
    obtain ⟨j, hij, hj⟩ := flattenLines_mem_fst e he
    have hkk : (k ++ natStr j : String) = k ++ natStr i := by rw [← hj, hek]
    have hdd : k.data ++ natDigits j = k.data ++ natDigits i := by
      have := congrArg String.data hkk
      rwa [string_data_append, string_data_append] at this
    have : j = i := natStr_inj (congrArg String.mk (List.append_cancel_left hdd))
    omega

theorem foldl_upsert_fresh : ∀ (ps : List (String × String)) (acc : List (String × String)),
    (∀ p ∈ ps, ∀ e ∈ acc, e.1 ≠ p.1) → (ps.map Prod.fst).Nodup →
    ps.foldl (fun a p => upsert a p.1 p.2) acc = acc ++ ps := by
  intro ps
  induction ps with
  | nil => intro acc _ _; simp
  | cons p ps ih =>
    intro acc hfresh hnd
    rw [List.foldl_cons]
    have hany : acc.any (fun e => e.1 == p.1) = false := by
      rw [List.any_eq_false]
      intro e he
      simpa using hfresh p (List.mem_cons_self _ _) e he
    rw [show upsert acc p.1 p.2 = acc ++ [p] from by rw [upsert, hany]; simp]
    rw [ih (acc ++ [p]) ?_ (List.nodup_cons.mp (by simpa using hnd)).2]
    · simp
    · intro q hq e he
      rcases List.mem_append.mp he with h1 | h2
      · exact hfresh q (List.mem_cons_of_mem _ hq) e h1
      · have hep : e = p := by simpa using h2
        rw [hep]
        intro hpq
        have : p.1 ∈ ps.map Prod.fst := hpq ▸ List.mem_map_of_mem _ hq
        exact (List.nodup_cons.mp (by simpa using hnd)).1 this

theorem flatten_single_list (k : String) (vs : List String) :
    flatten false [(k, SnbtVal.lst vs)] = flattenLines k 1 vs := by
  rw [flatten, List.foldl_cons, List.foldl_nil]
  rw [show flattenEntry false k (SnbtVal.lst vs) = flattenLines k 1 vs from by
    rw [flattenEntry]; simp]
  rw [foldl_upsert_fresh _ [] (by simp) (flattenLines_fst_nodup k vs 1)]
  simp

theorem regroup_flatten_lines {k : String} (hk : noDigitSuffix k.data) :
    ∀ (vs : List String) (i : Nat) (acc : List (Nat × Val)) (d0 : List (String × Val)),
    (toValPairs (flattenLines k i vs)).foldl regroupStep ([(k, acc)], d0)
      = ([(k, acc ++ idxVals i vs)], d0) := by
  intro vs
  induction vs with
  | nil => intro i acc d0; simp [flattenLines, toValPairs, idxVals]
  | cons v vs ih =>
    intro i acc d0
    rw [flattenLines,
      show toValPairs ((k ++ natStr i, unescape_string v) :: flattenLines k (i + 1) vs)
        = (k ++ natStr i, Val.str (unescape_string v)) :: toValPairs (flattenLines k (i + 1) vs)
        from rfl,
      List.foldl_cons]
    have heta : (⟨k.data⟩ : String) = k := rfl
    have hstep : regroupStep ([(k, acc)], d0) (k ++ natStr i, Val.str (unescape_string v))
        = ([(k, acc ++ [(i, Val.str (unescape_string v))])], d0) := by
      rw [regroupStep]
      simp only [splitKey_flatten_key hk i]
      rw [show appendMulti [(k, acc)] ⟨k.data⟩ (i, Val.str (unescape_string v))
          = [(k, acc ++ [(i, Val.str (unescape_string v))])] from by
        rw [appendMulti, heta]
        simp]
    rw [hstep, ih (i + 1) (acc ++ [(i, Val.str (unescape_string v))]) d0, idxVals]
    simp

theorem idxVals_map_snd : ∀ (vs : List String) (i : Nat),
    (idxVals i vs).map Prod.snd = vs.map (fun v => Val.str (unescape_string v)) := by
  intro vs
  induction vs with
  | nil => intro i; rfl
  | cons v vs ih => intro i; rw [idxVals]; simp [ih]

theorem idxVals_fst_ge : ∀ (vs : List String) (i : Nat),
    ∀ p ∈ idxVals i vs, i ≤ p.1 := by
  intro vs
  induction vs with
  | nil => intro i p h; simp [idxVals] at h
  | cons v vs ih =>
    intro i p h
    rw [idxVals] at h
    rcases List.mem_cons.mp h with h1 | h2
    · rw [h1]
    · exact Nat.le_of_succ_le (ih (i + 1) p h2)

theorem sortPairsByIdx_idxVals (vs : List String) (i : Nat) :
    sortPairsByIdx (idxVals i vs) = idxVals i vs := by
  rw [sortPairsByIdx]
  apply List.mergeSort_of_sorted
  induction vs generalizing i with
  | nil => simp [idxVals]
  | cons v vs ih =>
    rw [idxVals]
    refine List.pairwise_cons.mpr ⟨?_, ih (i + 1)⟩
    intro p hp
    simpa using Nat.le_of_succ_le (idxVals_fst_ge vs (i + 1) p hp)

theorem ord_then_lt_iff (x y : Ordering) :
    x.then y = .lt ↔ x = .lt ∨ (x = .eq ∧ y = .lt) := by
  cases x <;> simp [Ordering.then]

theorem ord_then_eq_iff (x y : Ordering) :
    x.then y = .eq ↔ x = .eq ∧ y = .eq := by
  cases x <;> simp [Ordering.then]

theorem natCmp_lt_iff (x y : Nat) : natCmp x y = .lt ↔ x < y := by
  unfold natCmp
  split_ifs with h1 h2 <;> simp <;> omega

theorem natCmp_eq_iff (x y : Nat) : natCmp x y = .eq ↔ x = y := by
  unfold natCmp
  split_ifs with h1 h2 <;> simp <;> omega

theorem natCmp_swap (x y : Nat) : natCmp y x = (natCmp x y).swap := by
  unfold natCmp
  split_ifs <;> first | rfl | omega

theorem clistCmp_lt_iff (x y : List Char) : clistCmp x y = .lt ↔ clistLt x y = true := by
  unfold clistCmp
  split_ifs with h1 h2 <;> simp [h1]

theorem clistCmp_eq_iff (x y : List Char) : clistCmp x y = .eq ↔ x = y := by
  unfold clistCmp
  split_ifs with h1 h2
  · simp only [reduceCtorEq, false_iff]
    intro hxy
    rw [hxy, clistLt_irrefl] at h1
    exact absurd h1 (by simp)
  · simp only [reduceCtorEq, false_iff]
    intro hxy
    rw [hxy, clistLt_irrefl] at h2
    exact absurd h2 (by simp)
  · simp only [true_iff]
    exact clistLt_connex (by simpa using h1) (by simpa using h2)

theorem clistCmp_swap (x y : List Char) : clistCmp y x = (clistCmp x y).swap := by
  by_cases h1 : clistLt x y = true
  · have h2 : clistLt y x = false := clistLt_asymm h1
    rw [clistCmp, clistCmp, if_neg (by simp [h2]), if_pos h1, if_pos h1]
    rfl
  · by_cases h2 : clistLt y x = true
    · rw [clistCmp, clistCmp, if_pos h2, if_neg h1, if_pos h2]
      rfl
    · have hxy : x = y := clistLt_connex (by simpa using h1) (by simpa using h2)
      subst hxy
      rw [clistCmp, if_neg h1, if_neg h1]
      rfl

theorem cmpLawful_proj {α β : Type} (base : β → β → Ordering) (p : α → β)
    (hswap : ∀ x y, base y x = (base x y).swap)
    (hltt : ∀ {x y z : β}, base x y = .lt → base y z = .lt → base x z = .lt)
    (heq : ∀ {x y : β}, base x y = .eq → x = y) :
    CmpLawful (fun a b => base (p a) (p b)) where
  swap a b := hswap (p a) (p b)
  lt_trans h1 h2 := hltt h1 h2
  lt_of_lt_of_eq h1 h2 := by
    rw [show p _ = p _ from heq h2] at h1
    exact h1
  lt_of_eq_of_lt h1 h2 := by
    rw [show p _ = p _ from heq h1]
    exact h2
  eq_trans h1 h2 := by
    rw [show p _ = p _ from heq h1]
    exact h2

theorem cmpLawful_natProj {α : Type} (p : α → Nat) :
    CmpLawful (fun a b => natCmp (p a) (p b)) :=
  cmpLawful_proj natCmp p natCmp_swap
    (fun h1 h2 => (natCmp_lt_iff _ _).mpr
      (lt_trans ((natCmp_lt_iff _ _).mp h1) ((natCmp_lt_iff _ _).mp h2)))
    (fun h => (natCmp_eq_iff _ _).mp h)

theorem cmpLawful_clistProj {α : Type} (p : α → List Char) :
    CmpLawful (fun a b => clistCmp (p a) (p b)) :=
  cmpLawful_proj clistCmp p clistCmp_swap
    (fun h1 h2 => (clistCmp_lt_iff _ _).mpr
      (clistLt_trans ((clistCmp_lt_iff _ _).mp h1) ((clistCmp_lt_iff _ _).mp h2)))
    (fun h => (clistCmp_eq_iff _ _).mp h)

theorem cmpLawful_then {α : Type} {f g : α → α → Ordering}
    (hf : CmpLawful f) (hg : CmpLawful g) :
    CmpLawful (fun a b => (f a b).then (g a b)) := by
  constructor
  · intro a b
    show (f b a).then (g b a) = ((f a b).then (g a b)).swap
    rw [hf.swap a b, hg.swap a b]
    cases f a b <;> cases g a b <;> rfl
  · intro a b c h1 h2
    rw [ord_then_lt_iff] at h1 h2 ⊢
    rcases h1 with h1 | ⟨h1, h1g⟩
    · rcases h2 with h2 | ⟨h2, _⟩
      · exact Or.inl (hf.lt_trans h1 h2)
      · exact Or.inl (hf.lt_of_lt_of_eq h1 h2)
    · rcases h2 with h2 | ⟨h2, h2g⟩
      · exact Or.inl (hf.lt_of_eq_of_lt h1 h2)
      · exact Or.inr ⟨hf.eq_trans h1 h2, hg.lt_trans h1g h2g⟩
  · intro a b c h1 h2
    rw [ord_then_lt_iff] at h1 ⊢
    rw [ord_then_eq_iff] at h2
    rcases h1 with h1 | ⟨h1, h1g⟩
    · exact Or.inl (hf.lt_of_lt_of_eq h1 h2.1)
    · exact Or.inr ⟨hf.eq_trans h1 h2.1, hg.lt_of_lt_of_eq h1g h2.2⟩
  · intro a b c h1 h2
    rw [ord_then_lt_iff] at h2 ⊢
    rw [ord_then_eq_iff] at h1
    rcases h2 with h2 | ⟨h2, h2g⟩
    · exact Or.inl (hf.lt_of_eq_of_lt h1.1 h2)
    · exact Or.inr ⟨hf.eq_trans h1.1 h2, hg.lt_of_eq_of_lt h1.2 h2g⟩
  · intro a b c h1 h2
    rw [ord_then_eq_iff] at h1 h2 ⊢
    exact ⟨hf.eq_trans h1.1 h2.1, hg.eq_trans h1.2 h2.2⟩

theorem cmpLawful_sortKeyCmp : CmpLawful SortKey.cmp := by
  have h6 := cmpLawful_natProj SortKey.numericPart
  have h5 := cmpLawful_then (cmpLawful_clistProj SortKey.nonNumericPart) h6
  have h4 := cmpLawful_then (cmpLawful_natProj SortKey.customPriority) h5
  have h3 := cmpLawful_then (cmpLawful_natProj SortKey.typePriority) h4
  have h2 := cmpLawful_then (cmpLawful_clistProj SortKey.questGroupId) h3
  have h1 := cmpLawful_then (cmpLawful_natProj SortKey.isChapterKey) h2
  exact h1

theorem sortKeyCmp_eq_iff (a b : SortKey) : SortKey.cmp a b = .eq ↔ a = b := by
  cases a with
  | mk a1 a2 a3 a4 a5 a6 =>
    cases b with
    | mk b1 b2 b3 b4 b5 b6 =>
      simp [SortKey.cmp, ord_then_eq_iff, natCmp_eq_iff, clistCmp_eq_iff, SortKey.mk.injEq,
        and_assoc]

theorem entryLe_true_iff (tm rm : List (String × String)) (x y : String × Val) :
    entryLe tm rm x y = true ↔
      SortKey.cmp (createSortKey tm rm y.1) (createSortKey tm rm x.1) ≠ .lt := by
  rw [entryLe, Bool.not_eq_true', sortKeyLt]
  cases SortKey.cmp (createSortKey tm rm y.1) (createSortKey tm rm x.1) <;> decide

theorem entryLe_total (tm rm : List (String × String)) (x y : String × Val) :
    (entryLe tm rm x y || entryLe tm rm y x) = true := by
  rw [Bool.or_eq_true, entryLe_true_iff, entryLe_true_iff]
  cases h : SortKey.cmp (createSortKey tm rm y.1) (createSortKey tm rm x.1) with
  | lt =>
    right
    have hs := cmpLawful_sortKeyCmp.swap (createSortKey tm rm y.1) (createSortKey tm rm x.1)
    rw [h] at hs
    rw [hs]
    decide
  | eq => left; decide
  | gt => left; decide

theorem entryLe_trans (tm rm : List (String × String)) (x y z : String × Val)
    (h1 : entryLe tm rm x y = true) (h2 : entryLe tm rm y z = true) :
    entryLe tm rm x z = true := by
  rw [entryLe_true_iff] at h1 h2 ⊢
  intro hzx
  rcases hzy : SortKey.cmp (createSortKey tm rm z.1) (createSortKey tm rm y.1) with _ | _ | _
  · exact h2 hzy
  · have hs := cmpLawful_sortKeyCmp.swap (createSortKey tm rm z.1) (createSortKey tm rm y.1)
    rw [hzy] at hs
    exact h1 (cmpLawful_sortKeyCmp.lt_of_eq_of_lt hs hzx)
  · have hs := cmpLawful_sortKeyCmp.swap (createSortKey tm rm z.1) (createSortKey tm rm y.1)
    rw [hzy] at hs
    exact h1 (cmpLawful_sortKeyCmp.lt_trans hs hzx)

theorem entryLe_both_eq (tm rm : List (String × String)) {x y : String × Val}
    (h1 : entryLe tm rm x y = true) (h2 : entryLe tm rm y x = true) :
    createSortKey tm rm x.1 = createSortKey tm rm y.1 := by
  rw [entryLe_true_iff] at h1 h2
  rcases hxy : SortKey.cmp (createSortKey tm rm x.1) (createSortKey tm rm y.1) with _ | _ | _
  · exact absurd hxy h2
  · exact (sortKeyCmp_eq_iff _ _).mp hxy
  · have hs := cmpLawful_sortKeyCmp.swap (createSortKey tm rm x.1) (createSortKey tm rm y.1)
    rw [hxy] at hs
    exact absurd hs h1

theorem afterPre_append (p r : List Char) : afterPre p (p ++ r) = some r := by
  induction p with
  | nil => rfl
  | cons a p ih => simp [afterPre, ih]

theorem isPre_append (p r : List Char) : isPre p (p ++ r) = true := by
  induction p with
  | nil => rfl
  | cons a p ih => simp [isPre, ih]

theorem isPre_iff (p t : List Char) : isPre p t = true ↔ ∃ r, t = p ++ r := by
  constructor
  · intro h
    induction p generalizing t with
    | nil => exact ⟨t, rfl⟩
    | cons a p ih =>
      cases t with
      | nil => simp [isPre] at h
      | cons b t =>
        rw [isPre, Bool.and_eq_true, beq_iff_eq] at h
        obtain ⟨r, hr⟩ := ih t h.2
        exact ⟨r, by rw [h.1, hr]; rfl⟩
  · intro ⟨r, hr⟩
    rw [hr]
    exact isPre_append p r

theorem takeWhile_hex_stop {id rest : List Char}
    (hhex : ∀ ch ∈ id, isHexUpper ch = true) :
    (id ++ ('.' :: rest)).takeWhile isHexUpper = id := by
  rw [takeWhile_append_of_all hhex]
  have hdot : isHexUpper '.' = false := by decide
  simp [List.takeWhile_cons, hdot]

theorem dropWhile_hex_stop {id rest : List Char}
    (hhex : ∀ ch ∈ id, isHexUpper ch = true) :
    (id ++ ('.' :: rest)).dropWhile isHexUpper = '.' :: rest := by
  rw [dropWhile_append_of_all hhex]
  have hdot : isHexUpper '.' = false := by decide
  simp [List.dropWhile_cons, hdot]

theorem hexSplit_shape {pat : List Char} {id rest : List Char} (key : List Char)
    (hkey : key = pat ++ (id ++ ('.' :: rest)))
    (hne : id ≠ []) (hhex : ∀ ch ∈ id, isHexUpper ch = true) :
    hexSplit pat key = some (id, '.' :: rest) := by
  rw [hkey, hexSplit, afterPre_append]
  simp only [takeWhile_hex_stop hhex, dropWhile_hex_stop hhex]
  rw [if_neg hne]

theorem idDotSuffix_shape {pat : List Char} {id rest : List Char} (key : List Char)
    (hkey : key = pat ++ (id ++ ('.' :: rest)))
    (hne : id ≠ []) (hhex : ∀ ch ∈ id, isHexUpper ch = true) :
    idDotSuffix pat key = some rest := by
  rw [idDotSuffix, hexSplit_shape key hkey hne hhex]
  rfl

theorem quest_key_data (id suf : String) :
    ("quest." ++ id ++ "." ++ suf).data
      = "quest.".data ++ (id.data ++ ('.' :: suf.data)) := by
  rw [string_data_append, string_data_append, string_data_append]
  rw [List.append_assoc, List.append_assoc]
  rfl

theorem task_key_data (id suf : String) :
    ("task." ++ id ++ "." ++ suf).data
      = "task.".data ++ (id.data ++ ('.' :: suf.data)) := by
  rw [string_data_append, string_data_append, string_data_append]
  rw [List.append_assoc, List.append_assoc]
  rfl

theorem reward_key_data (id suf : String) :
    ("reward." ++ id ++ "." ++ suf).data
      = "reward.".data ++ (id.data ++ ('.' :: suf.data)) := by
  rw [string_data_append, string_data_append, string_data_append]
  rw [List.append_assoc, List.append_assoc]
  rfl

theorem idSuffixAny_quest (id suf : String) (hne : id.data ≠ [])
    (hhex : ∀ ch ∈ id.data, isHexUpper ch = true) :
    idSuffixAny (("quest." ++ id ++ "." ++ suf).data) = suf.data := by
  rw [idSuffixAny]
  rw [show idDotSuffix "chapter.".data (("quest." ++ id ++ "." ++ suf).data) = none from by
    rw [quest_key_data, idDotSuffix, hexSplit]
    rfl]
  rw [idDotSuffix_shape _ (quest_key_data id suf) hne hhex]

theorem idSuffixAny_task (id suf : String) (hne : id.data ≠ [])
    (hhex : ∀ ch ∈ id.data, isHexUpper ch = true) :
    idSuffixAny (("task." ++ id ++ "." ++ suf).data) = suf.data := by
  rw [idSuffixAny]
  rw [show idDotSuffix "chapter.".data (("task." ++ id ++ "." ++ suf).data) = none from by
    rw [task_key_data, idDotSuffix, hexSplit]
    rfl]
  rw [show idDotSuffix "quest.".data (("task." ++ id ++ "." ++ suf).data) = none from by
    rw [task_key_data, idDotSuffix, hexSplit]
    rfl]
  rw [idDotSuffix_shape _ (task_key_data id suf) hne hhex]

theorem idSuffixAny_reward (id suf : String) (hne : id.data ≠ [])
    (hhex : ∀ ch ∈ id.data, isHexUpper ch = true) :
    idSuffixAny (("reward." ++ id ++ "." ++ suf).data) = suf.data := by
  rw [idSuffixAny]
  rw [show idDotSuffix "chapter.".data (("reward." ++ id ++ "." ++ suf).data) = none from by
    rw [reward_key_data, idDotSuffix, hexSplit]
    rfl]
  rw [show idDotSuffix "quest.".data (("reward." ++ id ++ "." ++ suf).data) = none from by
    rw [reward_key_data, idDotSuffix, hexSplit]
    rfl]
  rw [show idDotSuffix "task.".data (("reward." ++ id ++ "." ++ suf).data) = none from by
    rw [reward_key_data, idDotSuffix, hexSplit]
    rfl]
  rw [idDotSuffix_shape _ (reward_key_data id suf) hne hhex]

theorem createSortKey_quest (tm rm : List (String × String)) (id suf : String)
    (hne : id.data ≠ []) (hhex : ∀ ch ∈ id.data, isHexUpper ch = true) :
    createSortKey tm rm ("quest." ++ id ++ "." ++ suf)
      = { isChapterKey := 1, questGroupId := id.data, typePriority := 0,
          customPriority := firstMatchIdxAux questOrder 0 ('.' :: suf.data),
          nonNumericPart := (naturalParts (("quest." ++ id ++ "." ++ suf).data)).1,
          numericPart := (naturalParts (("quest." ++ id ++ "." ++ suf).data)).2 } := by
  have hchap : isPre "chapter.".data (("quest." ++ id ++ "." ++ suf).data) = false := by
    rw [quest_key_data]
    rfl
  have hquest : isPre "quest.".data (("quest." ++ id ++ "." ++ suf).data) = true := by
    rw [quest_key_data]
    exact isPre_append _ _
  have hsplit := hexSplit_shape _ (quest_key_data id suf) hne hhex
  have hcustom : customFromList questOrder "quest.".data (("quest." ++ id ++ "." ++ suf).data)
      = firstMatchIdxAux questOrder 0 ('.' :: suf.data) := by
    rw [customFromList, idDotSuffix_shape _ (quest_key_data id suf) hne hhex]
  simp only [createSortKey, hchap, hquest, hsplit, hcustom, Bool.false_eq_true, if_false,
    if_true]

theorem createSortKey_task (tm rm : List (String × String)) (id suf : String)
    (hne : id.data ≠ []) (hhex : ∀ ch ∈ id.data, isHexUpper ch = true) :
    createSortKey tm rm ("task." ++ id ++ "." ++ suf)
      = { isChapterKey := 1, questGroupId := (lookupD tm id).data, typePriority := 1,
          customPriority := 99,
          nonNumericPart := (naturalParts (("task." ++ id ++ "." ++ suf).data)).1,
          numericPart := (naturalParts (("task." ++ id ++ "." ++ suf).data)).2 } := by
  have hchap : isPre "chapter.".data (("task." ++ id ++ "." ++ suf).data) = false := by
    rw [task_key_data]
    rfl
  have hquest : isPre "quest.".data (("task." ++ id ++ "." ++ suf).data) = false := by
    rw [task_key_data]
    rfl
  have htask : isPre "task.".data (("task." ++ id ++ "." ++ suf).data) = true := by
    rw [task_key_data]
    exact isPre_append _ _
  have hsplit := hexSplit_shape _ (task_key_data id suf) hne hhex
  simp only [createSortKey, hchap, hquest, htask, hsplit, Bool.false_eq_true, if_false,
    if_true]

theorem createSortKey_reward (tm rm : List (String × String)) (id suf : String)
    (hne : id.data ≠ []) (hhex : ∀ ch ∈ id.data, isHexUpper ch = true) :
    createSortKey tm rm ("reward." ++ id ++ "." ++ suf)
      = { isChapterKey := 1, questGroupId := (lookupD rm id).data, typePriority := 2,
          customPriority := 99,
          nonNumericPart := (naturalParts (("reward." ++ id ++ "." ++ suf).data)).1,
          numericPart := (naturalParts (("reward." ++ id ++ "." ++ suf).data)).2 } := by
  have hchap : isPre "chapter.".data (("reward." ++ id ++ "." ++ suf).data) = false := by
    rw [reward_key_data]
    rfl
  have hquest : isPre "quest.".data (("reward." ++ id ++ "." ++ suf).data) = false := by
    rw [reward_key_data]
    rfl
  have htask : isPre "task.".data (("reward." ++ id ++ "." ++ suf).data) = false := by
    rw [reward_key_data]
    rfl
  have hreward : isPre "reward.".data (("reward." ++ id ++ "." ++ suf).data) = true := by
    rw [reward_key_data]
    exact isPre_append _ _
  have hsplit := hexSplit_shape _ (reward_key_data id suf) hne hhex
  simp only [createSortKey, hchap, hquest, htask, hreward, hsplit, Bool.false_eq_true,
    if_false, if_true]

theorem clistCmp_self (x : List Char) : clistCmp x x = .eq := by
  rw [clistCmp, if_neg (by simp [clistLt_irrefl]), if_neg (by simp [clistLt_irrefl])]

theorem naturalParts_desc {kd : List Char} (n : Nat)
    (h : idSuffixAny kd = ("desc" ++ natStr n).data) :
    naturalParts kd = ("desc".data, n) := by
  simp only [naturalParts, h]
  rw [show ("desc" ++ natStr n).data = "desc".data ++ natDigits n from rfl]
  rw [splitKey_append_digits (by decide) (natDigits_ne_nil n) (natDigits_all_digit n),
    parseDigits_natDigits]

theorem cmp_eq_fields (lv : Nat) (g : List Char) (tp cp : Nat) (nn : List Char)
    (m n : Nat) :
    SortKey.cmp ⟨lv, g, tp, cp, nn, m⟩ ⟨lv, g, tp, cp, nn, n⟩ = natCmp m n := by
  have hself : ∀ x : Nat, natCmp x x = Ordering.eq := fun x => (natCmp_eq_iff x x).mpr rfl
  rw [SortKey.cmp]
  simp only [clistCmp_self]
  rw [hself lv, hself tp, hself cp]
  rfl

theorem chapter_key_data (id suf : String) :
    ("chapter." ++ id ++ "." ++ suf).data
      = "chapter.".data ++ (id.data ++ ('.' :: suf.data)) := by
  rw [string_data_append, string_data_append, string_data_append]
  rw [List.append_assoc, List.append_assoc]
  rfl

theorem idSuffixAny_chapter (id suf : String) (hne : id.data ≠ [])
    (hhex : ∀ ch ∈ id.data, isHexUpper ch = true) :
    idSuffixAny (("chapter." ++ id ++ "." ++ suf).data) = suf.data := by
  rw [idSuffixAny]
  rw [idDotSuffix_shape _ (chapter_key_data id suf) hne hhex]

theorem createSortKey_chapter (tm rm : List (String × String)) (id suf : String)
    (hne : id.data ≠ []) (hhex : ∀ ch ∈ id.data, isHexUpper ch = true) :
    createSortKey tm rm ("chapter." ++ id ++ "." ++ suf)
      = { isChapterKey := 0, questGroupId := id.data, typePriority := 0,
          customPriority := firstMatchIdxAux chapterOrder 0 ('.' :: suf.data),
          nonNumericPart := (naturalParts (("chapter." ++ id ++ "." ++ suf).data)).1,
          numericPart := (naturalParts (("chapter." ++ id ++ "." ++ suf).data)).2 } := by
  have hchap : isPre "chapter.".data (("chapter." ++ id ++ "." ++ suf).data) = true := by
    rw [chapter_key_data]
    exact isPre_append _ _
  have hsplit := hexSplit_shape _ (chapter_key_data id suf) hne hhex
  have hcustom : customFromList chapterOrder "chapter.".data
      (("chapter." ++ id ++ "." ++ suf).data)
      = firstMatchIdxAux chapterOrder 0 ('.' :: suf.data) := by
    rw [customFromList, idDotSuffix_shape _ (chapter_key_data id suf) hne hhex]
  simp only [createSortKey, hchap, hsplit, hcustom, if_true]

theorem chapterCustom_desc (n : Nat) :
    firstMatchIdxAux chapterOrder 0 ('.' :: ("desc" ++ natStr n).data) = 2 := by
  have htitle : isPre ".title".data ('.' :: ("desc" ++ natStr n).data) = false := rfl
  have hdescr : isPre ".description".data ('.' :: ("desc" ++ natStr n).data) = false := by
    rw [show (".description" : String).data
        = '.' :: 'd' :: 'e' :: 's' :: 'c' :: 'r' :: "iption".data from rfl]
    rw [show ("desc" ++ natStr n).data = 'd' :: 'e' :: 's' :: 'c' :: natDigits n from rfl]
    cases hnd : natDigits n with
    | nil => exact absurd hnd (natDigits_ne_nil n)
    | cons ch rest =>
      have hch : ch.isDigit = true := natDigits_all_digit n ch (by
        rw [hnd]
        exact List.mem_cons_self _ _)
      have hne2 : ('r' == ch) = false := by
        rw [beq_eq_false_iff_ne]
        intro h
        rw [← h] at hch
        exact absurd hch (by decide)
      simp only [isPre, beq_self_eq_true, Bool.true_and, hne2, Bool.false_and]
  simp only [chapterOrder, firstMatchIdxAux, htitle, hdescr, Bool.false_eq_true, if_false]

theorem sortKey_chapter_desc (tm rm : List (String × String)) (id : String)
    (hne : id.data ≠ []) (hhex : ∀ ch ∈ id.data, isHexUpper ch = true) (m : Nat) :
    createSortKey tm rm ("chapter." ++ id ++ "." ++ ("desc" ++ natStr m))
      = ⟨0, id.data, 0, 2, "desc".data, m⟩ := by
  rw [createSortKey_chapter tm rm id _ hne hhex,
    naturalParts_desc m (idSuffixAny_chapter id _ hne hhex), chapterCustom_desc]

theorem sortKey_quest_desc (tm rm : List (String × String)) (id : String)
    (hne : id.data ≠ []) (hhex : ∀ ch ∈ id.data, isHexUpper ch = true) (m : Nat) :
    createSortKey tm rm ("quest." ++ id ++ "." ++ ("desc" ++ natStr m))
      = ⟨1, id.data, 0, 3, "desc".data, m⟩ := by
  rw [createSortKey_quest tm rm id _ hne hhex,
    naturalParts_desc m (idSuffixAny_quest id _ hne hhex)]
  rfl

theorem sortKey_task_desc (tm rm : List (String × String)) (id : String)
    (hne : id.data ≠ []) (hhex : ∀ ch ∈ id.data, isHexUpper ch = true) (m : Nat) :
    createSortKey tm rm ("task." ++ id ++ "." ++ ("desc" ++ natStr m))
      = ⟨1, (lookupD tm id).data, 1, 99, "desc".data, m⟩ := by
  rw [createSortKey_task tm rm id _ hne hhex,
    naturalParts_desc m (idSuffixAny_task id _ hne hhex)]

theorem sortKey_reward_desc (tm rm : List (String × String)) (id : String)
    (hne : id.data ≠ []) (hhex : ∀ ch ∈ id.data, isHexUpper ch = true) (m : Nat) :
    createSortKey tm rm ("reward." ++ id ++ "." ++ ("desc" ++ natStr m))
      = ⟨1, (lookupD rm id).data, 2, 99, "desc".data, m⟩ := by
  rw [createSortKey_reward tm rm id _ hne hhex,
    naturalParts_desc m (idSuffixAny_reward id _ hne hhex)]

theorem sort_desc_entries (tm rm : List (String × String)) (K : Nat → String)
    (va vb vc vd : Val) (lv : Nat) (g : List Char) (tp cp : Nat)
    (hsk : ∀ m, createSortKey tm rm (K m) = ⟨lv, g, tp, cp, "desc".data, m⟩) :
    sortEntries tm rm [(K 1, va), (K 9, vb), (K 10, vc), (K 2, vd)]
      = [(K 1, va), (K 2, vd), (K 9, vb), (K 10, vc)] := by
  have hle : ∀ (m n : Nat) (v w : Val),
      entryLe tm rm (K m, v) (K n, w) = true ↔ ¬ n < m := by
    intro m n v w
    rw [entryLe_true_iff]
    show SortKey.cmp (createSortKey tm rm (K n)) (createSortKey tm rm (K m)) ≠ .lt ↔ _
    rw [hsk, hsk, cmp_eq_fields]
    exact not_congr (natCmp_lt_iff n m)
  unfold sortEntries
  apply sorted_perm_eq (entryLe tm rm)
  · refine (List.mergeSort_perm _ _).trans ?_
    refine List.Perm.cons _ ?_
    exact (List.Perm.cons _ (List.Perm.swap _ _ _)).trans (List.Perm.swap _ _ _)
  · exact List.sorted_mergeSort (fun a b c2 => entryLe_trans tm rm a b c2)
      (entryLe_total tm rm) _
  · refine List.pairwise_cons.mpr ⟨?_, List.pairwise_cons.mpr ⟨?_,
      List.pairwise_cons.mpr ⟨?_, List.pairwise_singleton _ _⟩⟩⟩
    · intro b hb
      rcases List.mem_cons.mp hb with rfl | hb
      · exact (hle 1 2 va vd).mpr (by omega)
      rcases List.mem_cons.mp hb with rfl | hb
      · exact (hle 1 9 va vb).mpr (by omega)
      rcases List.mem_cons.mp hb with rfl | hb
      · exact (hle 1 10 va vc).mpr (by omega)
      · simp at hb
    · intro b hb
      rcases List.mem_cons.mp hb with rfl | hb
      · exact (hle 2 9 vd vb).mpr (by omega)
      rcases List.mem_cons.mp hb with rfl | hb
      · exact (hle 2 10 vd vc).mpr (by omega)
      · simp at hb
    · intro b hb
      rcases List.mem_cons.mp hb with rfl | hb
      · exact (hle 9 10 vb vc).mpr (by omega)
      · simp at hb
  · intro x hx y hy hxy hyx
    have hsks := entryLe_both_eq tm rm hxy hyx
    have hx2 := List.mem_mergeSort.mp hx
    have hy2 := List.mem_mergeSort.mp hy
    have hnum : ∀ (z : String × Val), z ∈ [(K 1, va), (K 9, vb), (K 10, vc), (K 2, vd)] →
        ∃ m, z = (K m, if m = 1 then va else if m = 9 then vb else if m = 10 then vc
          else vd) := by
      intro z hz
      rcases List.mem_cons.mp hz with rfl | hz
      · exact ⟨1, by simp⟩
      rcases List.mem_cons.mp hz with rfl | hz
      · exact ⟨9, by simp⟩
      rcases List.mem_cons.mp hz with rfl | hz
      · exact ⟨10, by simp⟩
      rcases List.mem_cons.mp hz with rfl | hz
      · exact ⟨2, by simp⟩
      · simp at hz
    obtain ⟨m, hxm⟩ := hnum x hx2
    obtain ⟨n, hyn⟩ := hnum y hy2
    have hmn : m = n := by
      rw [hxm, hyn] at hsks
      rw [hsk, hsk] at hsks
      exact congrArg SortKey.numericPart hsks
    rw [hxm, hyn, hmn]

theorem string_ext {s t : String} (h : s.data = t.data) : s = t := congrArg String.mk h

theorem upsert_mem_self {β : Type} (m : List (String × β)) (k : String) (v : β) :
    (k, v) ∈ upsert m k v := by
  rw [upsert]
  by_cases h : m.any (fun e => e.1 == k) = true
  · rw [if_pos h]
    obtain ⟨e, he, hek⟩ := List.any_eq_true.mp h
    have hek' : e.1 = k := by simpa using hek
    have himg : (if e.1 == k then (e.1, v) else e) = (k, v) := by
      rw [if_pos (by simpa using hek'), hek']
    rw [← himg]
    exact List.mem_map_of_mem _ he
  · rw [if_neg h]
    simp

theorem upsert_mem_ne {β : Type} {m : List (String × β)} {k : String} {v : β}
    (k' : String) (v' : β) (hne : k ≠ k') (hmem : (k, v) ∈ m) :
    (k, v) ∈ upsert m k' v' := by
  rw [upsert]
  by_cases h : m.any (fun e => e.1 == k') = true
  · rw [if_pos h]
    have himg : (if ((k, v) : String × β).1 == k' then (((k, v) : String × β).1, v')
        else (k, v)) = (k, v) := by
      simp [hne]
    rw [← himg]
    exact List.mem_map_of_mem _ hmem
  · rw [if_neg h]
    exact List.mem_append_left _ hmem

theorem nodupKeys_agree {src : List (String × Val)} (hnd : (src.map Prod.fst).Nodup)
    {k : String} {v : Val} (hmem : (k, v) ∈ src) :
    ∀ e ∈ src, e.1 = k → e.2 = v := by
  induction src with
  | nil => intro e he; simp at he
  | cons x src ih =>
    intro e he hek
    rw [List.map_cons, List.nodup_cons] at hnd
    rcases List.mem_cons.mp hmem with hkv | hkv
    · rcases List.mem_cons.mp he with he1 | he2
      · rw [he1, ← hkv]
      · exfalso
        apply hnd.1
        rw [show x.1 = k from by rw [← hkv]]
        exact hek ▸ List.mem_map_of_mem Prod.fst he2
    · rcases List.mem_cons.mp he with he1 | he2
      · exfalso
        apply hnd.1
        rw [show x.1 = k from by rw [← he1, hek]]
        exact List.mem_map_of_mem Prod.fst hkv
      · exact ih hnd.2 hkv e he2 hek

theorem addMatching_mem_preserved (src : List (String × Val)) (pre : String)
    (k : String) (v : Val) :
    ∀ (acc : List (String × Val)), (k, v) ∈ acc →
    (∀ e ∈ src, e.1 = k → e.2 = v) →
    (k, v) ∈ addMatching acc src pre := by
  induction src with
  | nil => intro acc hacc _; simpa [addMatching] using hacc
  | cons e src ih =>
    intro acc hacc hagree
    show (k, v) ∈
      addMatching (if isPre pre.data e.1.data then upsert acc e.1 e.2 else acc) src pre
    apply ih _ ?_ (fun x hx => hagree x (List.mem_cons_of_mem _ hx))
    by_cases hp : isPre pre.data e.1.data = true
    · rw [if_pos hp]
      by_cases hek : e.1 = k
      · have hv : e.2 = v := hagree e (List.mem_cons_self _ _) hek
        rw [hek, hv]
        exact upsert_mem_self acc k v
      · exact upsert_mem_ne e.1 e.2 (fun hc => hek hc.symm) hacc
    · rw [if_neg hp]
      exact hacc

theorem addMatching_mem_adds (src : List (String × Val)) (pre : String)
    (k : String) (v : Val) :
    ∀ (acc : List (String × Val)), (k, v) ∈ src → isPre pre.data k.data = true →
    (∀ e ∈ src, e.1 = k → e.2 = v) →
    (k, v) ∈ addMatching acc src pre := by
  induction src with
  | nil => intro acc h; simp at h
  | cons e src ih =>
    intro acc hmem hpre hagree
    show (k, v) ∈
      addMatching (if isPre pre.data e.1.data then upsert acc e.1 e.2 else acc) src pre
    rcases List.mem_cons.mp hmem with heq | hmem2
    · rw [← heq]
      have hcond : isPre pre.data ((k, v) : String × Val).1.data = true := hpre
      rw [if_pos hcond]
      exact addMatching_mem_preserved src pre k v _ (upsert_mem_self acc k v)
        (fun x hx => hagree x (List.mem_cons_of_mem _ hx))
    · exact ih _ hmem2 hpre (fun x hx => hagree x (List.mem_cons_of_mem _ hx))

theorem ids_fold_preserved (src : List (String × Val)) (f : String → String)
    (k : String) (v : Val) (hagree : ∀ e ∈ src, e.1 = k → e.2 = v) :
    ∀ (ids : List String) (acc : List (String × Val)), (k, v) ∈ acc →
    (k, v) ∈ ids.foldl (fun a t => if t = "" then a else addMatching a src (f t)) acc := by
  intro ids
  induction ids with
  | nil => intro acc hacc; exact hacc
  | cons t ids ih =>
    intro acc hacc
    rw [List.foldl_cons]
    apply ih
    by_cases ht : t = ""
    · rw [if_pos ht]; exact hacc
    · rw [if_neg ht]
      exact addMatching_mem_preserved src (f t) k v acc hacc hagree

theorem ids_fold_adds (src : List (String × Val)) (f : String → String)
    (k : String) (v : Val) (t0 : String)
    (hmem : (k, v) ∈ src) (hpre : isPre (f t0).data k.data = true)
    (hagree : ∀ e ∈ src, e.1 = k → e.2 = v) :
    ∀ (ids : List String) (acc : List (String × Val)), t0 ∈ ids → t0 ≠ "" →
    (k, v) ∈ ids.foldl (fun a t => if t = "" then a else addMatching a src (f t)) acc := by
  intro ids
  induction ids with
  | nil => intro acc h; simp at h
  | cons t ids ih =>
    intro acc hin hne0
    rw [List.foldl_cons]
    rcases List.mem_cons.mp hin with rfl | hin2
    · rw [if_neg hne0]
      exact ids_fold_preserved src f k v hagree ids _
        (addMatching_mem_adds src (f t0) k v acc hmem hpre hagree)
    · exact ih _ hin2 hne0

theorem quests_fold_preserved (qLang tLang rLang : List (String × Val))
    (k : String) (v : Val)
    (hagq : ∀ e ∈ qLang, e.1 = k → e.2 = v)
    (hagt : ∀ e ∈ tLang, e.1 = k → e.2 = v)
    (hagr : ∀ e ∈ rLang, e.1 = k → e.2 = v) :
    ∀ (quests : List QuestDef) (acc : List (String × Val)), (k, v) ∈ acc →
    (k, v) ∈ quests.foldl (fun acc q =>
      if q.id = "" then acc
      else
        let acc := addMatching acc qLang ("quest." ++ q.id ++ ".")
        let acc := q.tasks.foldl
          (fun a t => if t = "" then a else addMatching a tLang ("task." ++ t ++ ".")) acc
        q.rewards.foldl
          (fun a r => if r = "" then a else addMatching a rLang ("reward." ++ r ++ ".")) acc)
      acc := by
  intro quests
  induction quests with
  | nil => intro acc hacc; exact hacc
  | cons qq rest ih =>
    intro acc hacc
    rw [List.foldl_cons]
    apply ih
    by_cases hid : qq.id = ""
    · rw [if_pos hid]; exact hacc
    · rw [if_neg hid]
      exact ids_fold_preserved rLang _ k v hagr qq.rewards _
        (ids_fold_preserved tLang _ k v hagt qq.tasks _
          (addMatching_mem_preserved qLang _ k v acc hacc hagq))

theorem quests_fold_adds_task (qLang tLang rLang : List (String × Val))
    (k : String) (v : Val) (q : QuestDef) (t0 : String)
    (hmem : (k, v) ∈ tLang) (hpre : isPre ("task." ++ t0 ++ ".").data k.data = true)
    (hagq : ∀ e ∈ qLang, e.1 = k → e.2 = v)
    (hagt : ∀ e ∈ tLang, e.1 = k → e.2 = v)
    (hagr : ∀ e ∈ rLang, e.1 = k → e.2 = v)
    (hqid : q.id ≠ "") (ht0 : t0 ∈ q.tasks) (ht0ne : t0 ≠ "") :
    ∀ (quests : List QuestDef) (acc : List (String × Val)), q ∈ quests →
    (k, v) ∈ quests.foldl (fun acc q =>
      if q.id = "" then acc
      else
        let acc := addMatching acc qLang ("quest." ++ q.id ++ ".")
        let acc := q.tasks.foldl
          (fun a t => if t = "" then a else addMatching a tLang ("task." ++ t ++ ".")) acc
        q.rewards.foldl
          (fun a r => if r = "" then a else addMatching a rLang ("reward." ++ r ++ ".")) acc)
      acc := by
  intro quests
  induction quests with
  | nil => intro acc h; simp at h
  | cons qq rest ih =>
    intro acc hin
    rw [List.foldl_cons]
    rcases List.mem_cons.mp hin with rfl | hin2
    · apply quests_fold_preserved qLang tLang rLang k v hagq hagt hagr rest
      rw [if_neg hqid]
      exact ids_fold_preserved rLang _ k v hagr q.rewards _
        (ids_fold_adds tLang _ k v t0 hmem hpre hagt q.tasks _ ht0 ht0ne)
    · exact ih _ hin2

theorem quests_fold_adds_reward (qLang tLang rLang : List (String × Val))
    (k : String) (v : Val) (q : QuestDef) (r0 : String)
    (hmem : (k, v) ∈ rLang) (hpre : isPre ("reward." ++ r0 ++ ".").data k.data = true)
    (hagq : ∀ e ∈ qLang, e.1 = k → e.2 = v)
    (hagt : ∀ e ∈ tLang, e.1 = k → e.2 = v)
    (hagr : ∀ e ∈ rLang, e.1 = k → e.2 = v)
    (hqid : q.id ≠ "") (hr0 : r0 ∈ q.rewards) (hr0ne : r0 ≠ "") :
    ∀ (quests : List QuestDef) (acc : List (String × Val)), q ∈ quests →
    (k, v) ∈ quests.foldl (fun acc q =>
      if q.id = "" then acc
      else
        let acc := addMatching acc qLang ("quest." ++ q.id ++ ".")
        let acc := q.tasks.foldl
          (fun a t => if t = "" then a else addMatching a tLang ("task." ++ t ++ ".")) acc
        q.rewards.foldl
          (fun a r => if r = "" then a else addMatching a rLang ("reward." ++ r ++ ".")) acc)
      acc := by
  intro quests
  induction quests with
  | nil => intro acc h; simp at h
  | cons qq rest ih =>
    intro acc hin
    rw [List.foldl_cons]
    rcases List.mem_cons.mp hin with rfl | hin2
    · apply quests_fold_preserved qLang tLang rLang k v hagq hagt hagr rest
      rw [if_neg hqid]
      exact ids_fold_adds rLang _ k v r0 hmem hpre hagr q.rewards _ hr0 hr0ne
    · exact ih _ hin2

theorem isPre_head_eq {c1 c2 : Char} {p1 p2 key : List Char}
    (h1 : isPre (c1 :: p1) key = true) (h2 : isPre (c2 :: p2) key = true) : c1 = c2 := by
  cases key with
  | nil => simp [isPre] at h1
  | cons d t =>
    rw [isPre, Bool.and_eq_true, beq_iff_eq] at h1 h2
    rw [h1.1, h2.1]

theorem cmp_lt_of_type_lt (g : List Char) (t1 t2 c1 c2 : Nat) (n1 n2 : List Char)
    (m1 m2 : Nat) (h : t1 < t2) :
    SortKey.cmp ⟨1, g, t1, c1, n1, m1⟩ ⟨1, g, t2, c2, n2, m2⟩ = .lt := by
  rw [SortKey.cmp]
  simp only [clistCmp_self]
  rw [show natCmp 1 1 = .eq from rfl,
    show natCmp t1 t2 = .lt from (natCmp_lt_iff _ _).mpr h]
  rfl

/-! ## Claims -/

/-- C1 (amended): for every key `k` that does not end in a decimal
digit and every non-empty sequence `[v1, ..., vn]`, flattening
`{k : [v1, ..., vn]}` with `flattenSingle = false` and regrouping the
result yields under key `k` exactly the sequence of the unescaped
values, in original order. -/
theorem flatten_reconstruct_list (k : String) (vs : List String)
    (hk : noDigitSuffix k.data) (hvs : vs ≠ []) :
    reconstruct (toValPairs (flatten false [(k, SnbtVal.lst vs)]))
      = [(k, Val.lst (vs.map (fun v => Val.str (unescape_string v))))] := by
  rw [flatten_single_list]
  obtain ⟨v, vs2, rfl⟩ := List.exists_cons_of_ne_nil hvs
  rw [flattenLines,
    show toValPairs ((k ++ natStr 1, unescape_string v) :: flattenLines k 2 vs2)
      = (k ++ natStr 1, Val.str (unescape_string v)) :: toValPairs (flattenLines k 2 vs2)
      from rfl]
  rw [reconstruct, reconstructData]
  rw [List.foldl_cons,
    show regroupStep ([], []) (k ++ natStr 1, Val.str (unescape_string v))
      = ([(k, [(1, Val.str (unescape_string v))])], []) from by
      rw [regroupStep]
      simp only [splitKey_flatten_key hk 1]
      rw [show appendMulti [] (⟨k.data⟩ : String) (1, Val.str (unescape_string v))
          = [(k, [(1, Val.str (unescape_string v))])] from by
        rw [appendMulti]
        simp]]
  rw [regroup_flatten_lines hk vs2 2 [(1, Val.str (unescape_string v))] []]
  rw [show ([(1, Val.str (unescape_string v))] ++ idxVals 2 vs2)
      = idxVals 1 (v :: vs2) from by rw [idxVals]; simp]
  simp only [List.nil_append, List.map_cons, List.map_nil]
  rw [sortPairsByIdx_idxVals, idxVals_map_snd]
  rw [sortByKey]
  exact List.mergeSort_singleton _

/-- Witness for C1 on the specification's own example: the sequence
`["a", "b", "c"]` under key `"k"` round-trips. -/
theorem flatten_reconstruct_list_witness :
    reconstruct (toValPairs (flatten false [("k", SnbtVal.lst ["a", "b", "c"])]))
      = [("k", Val.lst [Val.str "a", Val.str "b", Val.str "c"])] :=
  (flatten_reconstruct_list "k" ["a", "b", "c"] (by decide) (by decide)).trans (by rfl)

/-- Counterexample to C1 as stated: for the key `"a1"`, which itself
ends in a digit, the flattened keys `a11`, `a12` are regrouped under
the base `"a"`, so the sequence is not restored under `"a1"`. -/
theorem flatten_reconstruct_list_counterexample :
    ("a1", Val.lst [Val.str "x", Val.str "y"]) ∉
      reconstruct (toValPairs (flatten false [("a1", SnbtVal.lst ["x", "y"])])) ∧
    reconstruct (toValPairs (flatten false [("a1", SnbtVal.lst ["x", "y"])]))
      = [("a", Val.lst [Val.str "x", Val.str "y"])] := by
  have h2 : reconstruct (toValPairs (flatten false [("a1", SnbtVal.lst ["x", "y"])]))
      = [("a", Val.lst [Val.str "x", Val.str "y"])] := by
    simp +decide [reconstruct, reconstructData, toValPairs, regroupStep, sortByKey,
      sortPairsByIdx, List.mergeSort, List.splitInTwo, List.merge, appendMulti,
      splitKey, keyLe, clistLt, parseDigits, digitVal, upsert, flatten, flattenEntry,
      flattenLines, natStr, natDigits, natDigitsAux, unescape_string, unescapeChars,
      replace2]
  refine ⟨?_, h2⟩
  intro hmem
  rw [h2] at hmem
  have heq := List.mem_singleton.mp hmem
  exact absurd (congrArg Prod.fst heq) (by decide)

/-- C3: for a chapter document whose quest `q` owns task `T1` and
reward `R1` (with uppercase-hex ids, linked to `q` by the linker
maps), the entries `task.T1.title` and `reward.R1.title` are placed
in that chapter's output file, and within that file every
`quest.<q.id>.*` key precedes every `task.T1.*` key, which precedes
every `reward.R1.*` key (intra-group type ranks quest 0, task 1,
reward 2, grouped by the owning quest id). -/
theorem chapter_hierarchy_grouping (tm rm : List (String × String)) (doc : ChapterDoc)
    (chLang qLang tLang rLang : List (String × Val)) (q : QuestDef)
    (T1 R1 : String) (v1 v2 : Val)
    (hdoc : doc.id ≠ "") (hq : q ∈ doc.quests)
    (hqid_ne : q.id.data ≠ []) (hqid_hex : ∀ ch ∈ q.id.data, isHexUpper ch = true)
    (ht_ne : T1.data ≠ []) (ht_hex : ∀ ch ∈ T1.data, isHexUpper ch = true)
    (hr_ne : R1.data ≠ []) (hr_hex : ∀ ch ∈ R1.data, isHexUpper ch = true)
    (hT1 : T1 ∈ q.tasks) (hR1 : R1 ∈ q.rewards)
    (htq : lookupD tm T1 = q.id) (hrq : lookupD rm R1 = q.id)
    (htmem : ("task." ++ T1 ++ "." ++ "title", v1) ∈ tLang)
    (hrmem : ("reward." ++ R1 ++ "." ++ "title", v2) ∈ rLang)
    (htnd : (tLang.map Prod.fst).Nodup) (hrnd : (rLang.map Prod.fst).Nodup)
    (hqP : ∀ e ∈ qLang, isPre "quest.".data e.1.data = true)
    (htP : ∀ e ∈ tLang, isPre "task.".data e.1.data = true)
    (hrP : ∀ e ∈ rLang, isPre "reward.".data e.1.data = true) :
    processChapter tm rm doc chLang qLang tLang rLang
      = some (sortEntries tm rm (collectChapter doc chLang qLang tLang rLang)) ∧
    ("task." ++ T1 ++ "." ++ "title", v1)
      ∈ sortEntries tm rm (collectChapter doc chLang qLang tLang rLang) ∧
    ("reward." ++ R1 ++ "." ++ "title", v2)
      ∈ sortEntries tm rm (collectChapter doc chLang qLang tLang rLang) ∧
    (∀ (i j : Nat)
      (hi : i < (sortEntries tm rm (collectChapter doc chLang qLang tLang rLang)).length)
      (hj : j < (sortEntries tm rm (collectChapter doc chLang qLang tLang rLang)).length),
      isPre ("quest." ++ q.id ++ ".").data
        ((sortEntries tm rm (collectChapter doc chLang qLang tLang rLang)).get ⟨i, hi⟩).1.data
        = true →
      isPre ("task." ++ T1 ++ ".").data
        ((sortEntries tm rm (collectChapter doc chLang qLang tLang rLang)).get ⟨j, hj⟩).1.data
        = true →
      i < j) ∧
    (∀ (i j : Nat)
      (hi : i < (sortEntries tm rm (collectChapter doc chLang qLang tLang rLang)).length)
      (hj : j < (sortEntries tm rm (collectChapter doc chLang qLang tLang rLang)).length),
      isPre ("task." ++ T1 ++ ".").data
        ((sortEntries tm rm (collectChapter doc chLang qLang tLang rLang)).get ⟨i, hi⟩).1.data
        = true →
      isPre ("reward." ++ R1 ++ ".").data
        ((sortEntries tm rm (collectChapter doc chLang qLang tLang rLang)).get ⟨j, hj⟩).1.data
        = true →
      i < j) := by
  have hqidne : q.id ≠ "" := fun h => hqid_ne (by rw [h])
  have ht0ne : T1 ≠ "" := fun h => ht_ne (by rw [h])
  have hr0ne : R1 ≠ "" := fun h => hr_ne (by rw [h])
  -- agreement facts: only the right dictionary can carry each key
  have hagt : ∀ e ∈ tLang, e.1 = "task." ++ T1 ++ "." ++ "title" → e.2 = v1 :=
    nodupKeys_agree htnd htmem
  have hagr : ∀ e ∈ rLang, e.1 = "reward." ++ R1 ++ "." ++ "title" → e.2 = v2 :=
    nodupKeys_agree hrnd hrmem
  have hagq_t : ∀ e ∈ qLang, e.1 = "task." ++ T1 ++ "." ++ "title" → e.2 = v1 := by
    intro e he heq
    exfalso
    have hp := hqP e he
    rw [heq, task_key_data] at hp
    exact absurd (isPre_head_eq hp (isPre_append "task.".data _)) (by decide)
  have hagr_t : ∀ e ∈ rLang, e.1 = "task." ++ T1 ++ "." ++ "title" → e.2 = v1 := by
    intro e he heq
    exfalso
    have hp := hrP e he
    rw [heq, task_key_data] at hp
    exact absurd (isPre_head_eq hp (isPre_append "task.".data _)) (by decide)
  have hagq_r : ∀ e ∈ qLang, e.1 = "reward." ++ R1 ++ "." ++ "title" → e.2 = v2 := by
    intro e he heq
    exfalso
    have hp := hqP e he
    rw [heq, reward_key_data] at hp
    exact absurd (isPre_head_eq hp (isPre_append "reward.".data _)) (by decide)
  have hagt_r : ∀ e ∈ tLang, e.1 = "reward." ++ R1 ++ "." ++ "title" → e.2 = v2 := by
    intro e he heq
    exfalso
    have hp := htP e he
    rw [heq, reward_key_data] at hp
    exact absurd (isPre_head_eq hp (isPre_append "reward.".data _)) (by decide)
  -- prefix facts for the two entry keys
  have hpre_t : isPre ("task." ++ T1 ++ ".").data ("task." ++ T1 ++ "." ++ "title").data
      = true := by
    rw [string_data_append ("task." ++ T1 ++ ".") "title"]
    exact isPre_append _ _
  have hpre_r : isPre ("reward." ++ R1 ++ ".").data ("reward." ++ R1 ++ "." ++ "title").data
      = true := by
    rw [string_data_append ("reward." ++ R1 ++ ".") "title"]
    exact isPre_append _ _
  -- membership in the collected chapter content
  have hcol_t : ("task." ++ T1 ++ "." ++ "title", v1)
      ∈ collectChapter doc chLang qLang tLang rLang :=
    quests_fold_adds_task qLang tLang rLang _ v1 q T1 htmem hpre_t hagq_t hagt hagr_t
      hqidne hT1 ht0ne doc.quests _ hq
  have hcol_r : ("reward." ++ R1 ++ "." ++ "title", v2)
      ∈ collectChapter doc chLang qLang tLang rLang :=
    quests_fold_adds_reward qLang tLang rLang _ v2 q R1 hrmem hpre_r hagq_r hagt_r hagr
      hqidne hR1 hr0ne doc.quests _ hq
  -- the per-chapter file is written, with the sorted content
  have hproc : processChapter tm rm doc chLang qLang tLang rLang
      = some (sortEntries tm rm (collectChapter doc chLang qLang tLang rLang)) := by
    rw [processChapter, if_neg hdoc]
    rw [if_neg (List.ne_nil_of_mem hcol_t)]
  have hmem_t : ("task." ++ T1 ++ "." ++ "title", v1)
      ∈ sortEntries tm rm (collectChapter doc chLang qLang tLang rLang) :=
    List.mem_mergeSort.mpr hcol_t
  have hmem_r : ("reward." ++ R1 ++ "." ++ "title", v2)
      ∈ sortEntries tm rm (collectChapter doc chLang qLang tLang rLang) :=
    List.mem_mergeSort.mpr hcol_r
  -- sortedness of the output
  have hsorted : (sortEntries tm rm (collectChapter doc chLang qLang tLang rLang)).Pairwise
      (fun a b => entryLe tm rm a b = true) :=
    List.sorted_mergeSort (fun a b c => entryLe_trans tm rm a b c) (entryLe_total tm rm) _
  -- sort keys of prefixed keys
  have hskq : ∀ (key : String), isPre ("quest." ++ q.id ++ ".").data key.data = true →
      ∃ cp nn np, createSortKey tm rm key = ⟨1, q.id.data, 0, cp, nn, np⟩ := by
    intro key hk
    obtain ⟨r, hr⟩ := (isPre_iff _ _).mp hk
    have hkey : key = "quest." ++ q.id ++ "." ++ (⟨r⟩ : String) :=
      string_ext (hr.trans rfl)
    exact ⟨_, _, _, by
      rw [hkey]
      exact createSortKey_quest tm rm q.id _ hqid_ne hqid_hex⟩
  have hskt : ∀ (key : String), isPre ("task." ++ T1 ++ ".").data key.data = true →
      ∃ nn np, createSortKey tm rm key = ⟨1, q.id.data, 1, 99, nn, np⟩ := by
    intro key hk
    obtain ⟨r, hr⟩ := (isPre_iff _ _).mp hk
    have hkey : key = "task." ++ T1 ++ "." ++ (⟨r⟩ : String) :=
      string_ext (hr.trans rfl)
    exact ⟨_, _, by
      rw [hkey, createSortKey_task tm rm T1 _ ht_ne ht_hex, htq]⟩
  have hskr : ∀ (key : String), isPre ("reward." ++ R1 ++ ".").data key.data = true →
      ∃ nn np, createSortKey tm rm key = ⟨1, q.id.data, 2, 99, nn, np⟩ := by
    intro key hk
    obtain ⟨r, hr⟩ := (isPre_iff _ _).mp hk
    have hkey : key = "reward." ++ R1 ++ "." ++ (⟨r⟩ : String) :=
      string_ext (hr.trans rfl)
    exact ⟨_, _, by
      rw [hkey, createSortKey_reward tm rm R1 _ hr_ne hr_hex, hrq]⟩
  refine ⟨hproc, hmem_t, hmem_r, ?_, ?_⟩
  · intro i j hi hj hqi htj
    by_contra hij
    have hle_ji : j ≤ i := Nat.not_lt.mp hij
    have hne_ij : i ≠ j := by
      intro h
      subst h
      exact absurd (isPre_head_eq hqi htj) (by decide)
    have hj_lt : j < i := Nat.lt_of_le_of_ne hle_ji (fun h => hne_ij h.symm)
    have hp := List.pairwise_iff_get.mp hsorted ⟨j, hj⟩ ⟨i, hi⟩ hj_lt
    rw [entryLe_true_iff] at hp
    obtain ⟨cp1, nn1, np1, hsk1⟩ := hskq _ hqi
    obtain ⟨nn2, np2, hsk2⟩ := hskt _ htj
    rw [hsk1, hsk2] at hp
    exact hp (cmp_lt_of_type_lt q.id.data 0 1 cp1 99 nn1 nn2 np1 np2 (by omega))
  · intro i j hi hj hti hrj
    by_contra hij
    have hle_ji : j ≤ i := Nat.not_lt.mp hij
    have hne_ij : i ≠ j := by
      intro h
      subst h
      exact absurd (isPre_head_eq hti hrj) (by decide)
    have hj_lt : j < i := Nat.lt_of_le_of_ne hle_ji (fun h => hne_ij h.symm)
    have hp := List.pairwise_iff_get.mp hsorted ⟨j, hj⟩ ⟨i, hi⟩ hj_lt
    rw [entryLe_true_iff] at hp
    obtain ⟨nn1, np1, hsk1⟩ := hskt _ hti
    obtain ⟨nn2, np2, hsk2⟩ := hskr _ hrj
    rw [hsk1, hsk2] at hp
    exact hp (cmp_lt_of_type_lt q.id.data 1 2 99 99 nn1 nn2 np1 np2 (by omega))

/-- Witness for C3 at a concrete one-quest chapter document. -/
theorem chapter_hierarchy_grouping_witness :
    processChapter [("2B", "1A")] [("3C", "1A")] ⟨"C1", [⟨"1A", ["2B"], ["3C"]⟩]⟩
        [] [("quest.1A.title", Val.str "qt")] [("task.2B.title", Val.str "tt")]
        [("reward.3C.title", Val.str "rt")]
      = some (sortEntries [("2B", "1A")] [("3C", "1A")]
          (collectChapter ⟨"C1", [⟨"1A", ["2B"], ["3C"]⟩]⟩
            [] [("quest.1A.title", Val.str "qt")] [("task.2B.title", Val.str "tt")]
            [("reward.3C.title", Val.str "rt")])) ∧
    ("task." ++ "2B" ++ "." ++ "title", Val.str "tt")
      ∈ sortEntries [("2B", "1A")] [("3C", "1A")]
          (collectChapter ⟨"C1", [⟨"1A", ["2B"], ["3C"]⟩]⟩
            [] [("quest.1A.title", Val.str "qt")] [("task.2B.title", Val.str "tt")]
            [("reward.3C.title", Val.str "rt")]) := by
  have h := chapter_hierarchy_grouping [("2B", "1A")] [("3C", "1A")]
    ⟨"C1", [⟨"1A", ["2B"], ["3C"]⟩]⟩
    [] [("quest.1A.title", Val.str "qt")] [("task.2B.title", Val.str "tt")]
    [("reward.3C.title", Val.str "rt")]
    ⟨"1A", ["2B"], ["3C"]⟩ "2B" "3C" (Val.str "tt") (Val.str "rt")
    (by decide) (List.mem_singleton.mpr rfl)
    (by decide) (by decide) (by decide) (by decide) (by decide) (by decide)
    (by decide) (by decide) (by decide) (by decide)
    (List.mem_singleton.mpr rfl) (List.mem_singleton.mpr rfl)
    (by decide) (by decide)
    (by intro e he; rw [List.mem_singleton.mp he]; decide)
    (by intro e he; rw [List.mem_singleton.mp he]; decide)
    (by intro e he; rw [List.mem_singleton.mp he]; decide)
  exact ⟨h.1, h.2.1⟩

/-- Counterexample to C4 as stated: for the shared prefix `x.`, which
is not of the recognized `(chapter|quest|task|reward).<HEXID>.` form,
`create_sort_key` falls back to whole-key string comparison, which
puts `desc10` before `desc2` and `desc9`. -/
theorem natural_sort_counterexample :
    sortEntries [] [] [("x.desc1", Val.str "a"), ("x.desc9", Val.str "b"),
        ("x.desc10", Val.str "c"), ("x.desc2", Val.str "d")]
      = [("x.desc1", Val.str "a"), ("x.desc10", Val.str "c"),
         ("x.desc2", Val.str "d"), ("x.desc9", Val.str "b")] ∧
    sortEntries [] [] [("x.desc1", Val.str "a"), ("x.desc9", Val.str "b"),
        ("x.desc10", Val.str "c"), ("x.desc2", Val.str "d")]
      ≠ [("x.desc1", Val.str "a"), ("x.desc2", Val.str "d"),
         ("x.desc9", Val.str "b"), ("x.desc10", Val.str "c")] := by
  have h : sortEntries [] [] [("x.desc1", Val.str "a"), ("x.desc9", Val.str "b"),
        ("x.desc10", Val.str "c"), ("x.desc2", Val.str "d")]
      = [("x.desc1", Val.str "a"), ("x.desc10", Val.str "c"),
         ("x.desc2", Val.str "d"), ("x.desc9", Val.str "b")] := by
    simp +decide [sortEntries, entryLe, sortKeyLt, SortKey.cmp, createSortKey,
      naturalParts, idSuffixAny, idDotSuffix, hexSplit, afterPre, isPre, isHexUpper,
      firstMatchIdxAux, customFromList, chapterOrder, questOrder, lookupD, splitKey,
      parseDigits, digitVal, natCmp, clistCmp, clistLt, List.mergeSort, List.splitInTwo,
      List.merge, Ordering.then]
  refine ⟨h, ?_⟩
  rw [h]
  intro hc
  have := congrArg (fun l => l.map Prod.fst) hc
  exact absurd this (by decide)

/-- C4 (amended): for every recognized namespace — `chapter`, `quest`,
`task` or `reward` — four keys sharing a prefix of the form
`<namespace>.<HEXID>.` (with a non-empty uppercase-hex id) and
differing only in the suffixes `desc1`, `desc9`, `desc10`, `desc2` are
ordered `desc1, desc2, desc9, desc10` by the Hierarchical Sorter: the
trailing digit run is split off the final suffix segment and compared
numerically.  The counterexample shows the spec's concrete keys
`x.desc1, ...` are not of this form and are ordered
`desc1, desc10, desc2, desc9` instead. -/
theorem natural_sort_recognized_keys (tm rm : List (String × String)) (id : String)
    (va vb vc vd : Val) (hne : id.data ≠ [])
    (hhex : ∀ ch ∈ id.data, isHexUpper ch = true) :
    (sortEntries tm rm
      [("chapter." ++ id ++ "." ++ "desc1", va), ("chapter." ++ id ++ "." ++ "desc9", vb),
       ("chapter." ++ id ++ "." ++ "desc10", vc), ("chapter." ++ id ++ "." ++ "desc2", vd)]
      = [("chapter." ++ id ++ "." ++ "desc1", va), ("chapter." ++ id ++ "." ++ "desc2", vd),
         ("chapter." ++ id ++ "." ++ "desc9", vb), ("chapter." ++ id ++ "." ++ "desc10", vc)]) ∧
    (sortEntries tm rm
      [("quest." ++ id ++ "." ++ "desc1", va), ("quest." ++ id ++ "." ++ "desc9", vb),
       ("quest." ++ id ++ "." ++ "desc10", vc), ("quest." ++ id ++ "." ++ "desc2", vd)]
      = [("quest." ++ id ++ "." ++ "desc1", va), ("quest." ++ id ++ "." ++ "desc2", vd),
         ("quest." ++ id ++ "." ++ "desc9", vb), ("quest." ++ id ++ "." ++ "desc10", vc)]) ∧
    (sortEntries tm rm
      [("task." ++ id ++ "." ++ "desc1", va), ("task." ++ id ++ "." ++ "desc9", vb),
       ("task." ++ id ++ "." ++ "desc10", vc), ("task." ++ id ++ "." ++ "desc2", vd)]
      = [("task." ++ id ++ "." ++ "desc1", va), ("task." ++ id ++ "." ++ "desc2", vd),
         ("task." ++ id ++ "." ++ "desc9", vb), ("task." ++ id ++ "." ++ "desc10", vc)]) ∧
    (sortEntries tm rm
      [("reward." ++ id ++ "." ++ "desc1", va), ("reward." ++ id ++ "." ++ "desc9", vb),
       ("reward." ++ id ++ "." ++ "desc10", vc), ("reward." ++ id ++ "." ++ "desc2", vd)]
      = [("reward." ++ id ++ "." ++ "desc1", va), ("reward." ++ id ++ "." ++ "desc2", vd),
         ("reward." ++ id ++ "." ++ "desc9", vb), ("reward." ++ id ++ "." ++ "desc10", vc)]) := by
  have hd1 : ("desc1" : String) = "desc" ++ natStr 1 := rfl
  have hd2 : ("desc2" : String) = "desc" ++ natStr 2 := rfl
  have hd9 : ("desc9" : String) = "desc" ++ natStr 9 := rfl
  have hd10 : ("desc10" : String) = "desc" ++ natStr 10 := rfl
  rw [hd1, hd2, hd9, hd10]
  refine ⟨?_, ?_, ?_, ?_⟩
  · exact sort_desc_entries tm rm
      (fun m => "chapter." ++ id ++ "." ++ ("desc" ++ natStr m)) va vb vc vd
      0 id.data 0 2 (fun m => sortKey_chapter_desc tm rm id hne hhex m)
  · exact sort_desc_entries tm rm
      (fun m => "quest." ++ id ++ "." ++ ("desc" ++ natStr m)) va vb vc vd
      1 id.data 0 3 (fun m => sortKey_quest_desc tm rm id hne hhex m)
  · exact sort_desc_entries tm rm
      (fun m => "task." ++ id ++ "." ++ ("desc" ++ natStr m)) va vb vc vd
      1 (lookupD tm id).data 1 99 (fun m => sortKey_task_desc tm rm id hne hhex m)
  · exact sort_desc_entries tm rm
      (fun m => "reward." ++ id ++ "." ++ ("desc" ++ natStr m)) va vb vc vd
      1 (lookupD rm id).data 2 99 (fun m => sortKey_reward_desc tm rm id hne hhex m)

/-- Witness for C4 at the concrete hex id `AB`, for all four
recognized namespaces. -/
theorem natural_sort_recognized_keys_witness :
    (sortEntries [] [] [("chapter." ++ "AB" ++ "." ++ "desc1", Val.str "a"),
        ("chapter." ++ "AB" ++ "." ++ "desc9", Val.str "b"),
        ("chapter." ++ "AB" ++ "." ++ "desc10", Val.str "c"),
        ("chapter." ++ "AB" ++ "." ++ "desc2", Val.str "d")]
      = [("chapter." ++ "AB" ++ "." ++ "desc1", Val.str "a"),
         ("chapter." ++ "AB" ++ "." ++ "desc2", Val.str "d"),
         ("chapter." ++ "AB" ++ "." ++ "desc9", Val.str "b"),
         ("chapter." ++ "AB" ++ "." ++ "desc10", Val.str "c")]) ∧
    (sortEntries [] [] [("quest." ++ "AB" ++ "." ++ "desc1", Val.str "a"),
        ("quest." ++ "AB" ++ "." ++ "desc9", Val.str "b"),
        ("quest." ++ "AB" ++ "." ++ "desc10", Val.str "c"),
        ("quest." ++ "AB" ++ "." ++ "desc2", Val.str "d")]
      = [("quest." ++ "AB" ++ "." ++ "desc1", Val.str "a"),
         ("quest." ++ "AB" ++ "." ++ "desc2", Val.str "d"),
         ("quest." ++ "AB" ++ "." ++ "desc9", Val.str "b"),
         ("quest." ++ "AB" ++ "." ++ "desc10", Val.str "c")]) ∧
    (sortEntries [] [] [("task." ++ "AB" ++ "." ++ "desc1", Val.str "a"),
        ("task." ++ "AB" ++ "." ++ "desc9", Val.str "b"),
        ("task." ++ "AB" ++ "." ++ "desc10", Val.str "c"),
        ("task." ++ "AB" ++ "." ++ "desc2", Val.str "d")]
      = [("task." ++ "AB" ++ "." ++ "desc1", Val.str "a"),
         ("task." ++ "AB" ++ "." ++ "desc2", Val.str "d"),
         ("task." ++ "AB" ++ "." ++ "desc9", Val.str "b"),
         ("task." ++ "AB" ++ "." ++ "desc10", Val.str "c")]) ∧
    (sortEntries [] [] [("reward." ++ "AB" ++ "." ++ "desc1", Val.str "a"),
        ("reward." ++ "AB" ++ "." ++ "desc9", Val.str "b"),
        ("reward." ++ "AB" ++ "." ++ "desc10", Val.str "c"),
        ("reward." ++ "AB" ++ "." ++ "desc2", Val.str "d")]
      = [("reward." ++ "AB" ++ "." ++ "desc1", Val.str "a"),
         ("reward." ++ "AB" ++ "." ++ "desc2", Val.str "d"),
         ("reward." ++ "AB" ++ "." ++ "desc9", Val.str "b"),
         ("reward." ++ "AB" ++ "." ++ "desc10", Val.str "c")]) :=
  natural_sort_recognized_keys [] [] "AB" (Val.str "a") (Val.str "b") (Val.str "c")
    (Val.str "d") (by decide) (by decide)

/-- C5: the end-to-end scenario.  The input mapping flattens (with
`flattenSingle = false`) to the four expected flat entries, the
Categorizer places the quest-prefixed keys in the quest group and
`other.key` in the "other" group, and reconstruction of the flattened
mapping restores `["Line1", "Line2"]` under `quest.AB.desc`. -/
theorem end_to_end_scenario :
    flatten false [("quest.AB.title", SnbtVal.str "Hello"),
        ("quest.AB.desc", SnbtVal.lst ["Line1", "Line2"]),
        ("other.key", SnbtVal.str "X")]
      = [("quest.AB.title", "Hello"), ("quest.AB.desc1", "Line1"),
        ("quest.AB.desc2", "Line2"), ("other.key", "X")] ∧
    categorize "quest.AB.title" = Category.quests ∧
    categorize "quest.AB.desc1" = Category.quests ∧
    categorize "quest.AB.desc2" = Category.quests ∧
    categorize "other.key" = Category.other ∧
    ("quest.AB.desc", Val.lst [Val.str "Line1", Val.str "Line2"]) ∈
      reconstruct (toValPairs (flatten false [("quest.AB.title", SnbtVal.str "Hello"),
        ("quest.AB.desc", SnbtVal.lst ["Line1", "Line2"]),
        ("other.key", SnbtVal.str "X")])) := by
  have hrec : reconstruct (toValPairs (flatten false [("quest.AB.title", SnbtVal.str "Hello"),
        ("quest.AB.desc", SnbtVal.lst ["Line1", "Line2"]),
        ("other.key", SnbtVal.str "X")]))
      = [("other.key", Val.str "X"), ("quest.AB.desc", Val.lst [Val.str "Line1", Val.str "Line2"]),
        ("quest.AB.title", Val.str "Hello")] := by
    simp +decide [reconstruct, reconstructData, toValPairs, regroupStep, sortByKey,
      sortPairsByIdx, List.mergeSort, List.splitInTwo, List.merge, appendMulti,
      splitKey, keyLe, clistLt, parseDigits, digitVal, upsert, flatten, flattenEntry,
      flattenLines, natStr, natDigits, natDigitsAux, unescape_string, unescapeChars,
      replace2]
  refine ⟨by decide, by decide, by decide, by decide, by decide, ?_⟩
  rw [hrec]
  simp

/-- C2: for every string `s`,
`unescape_string (escape_string_for_snbt s) = s`, where
`escape_string_for_snbt` replaces backslash with double-backslash and
then double-quote with backslash-quote, and `unescape_string`
replaces backslash-quote with double-quote and then double-backslash
with backslash. -/
theorem escape_unescape_roundtrip (s : String) :
    unescape_string (escape_string_for_snbt s) = s := by
  rw [escape_string_for_snbt, unescape_string]
  show (⟨unescapeChars (escapeChars s.data)⟩ : String) = s
  rw [unescapeChars_escapeChars]

/-- C7: for every translation item fetched from the remote API, the
output value is the item's original text whenever its stage is 0, -1,
or 2, or its translation field is empty or missing, and is the
translation text otherwise; in particular an item with `stage = 0`
and a non-empty translation still yields the original text. -/
theorem translate_stage_fallback (items : List TransItem) (it : TransItem)
    (hmem : it ∈ items) :
    itemValue it ∈ (translateLists items).2 ∧
    ((it.stage = 0 ∨ it.stage = -1 ∨ it.stage = 2 ∨ it.translation.getD "" = "") →
      itemValue it = it.original.getD "") ∧
    (¬(it.stage = 0 ∨ it.stage = -1 ∨ it.stage = 2 ∨ it.translation.getD "" = "") →
      itemValue it = it.translation.getD "") := by
  refine ⟨List.mem_map_of_mem _ hmem, fun h => ?_, fun h => ?_⟩
  · simp only [itemValue]
    rw [if_pos h]
  · simp only [itemValue]
    rw [if_neg h]

/-- Witness for C7 at a concrete item with `stage = 0` and non-empty
translation: the original text is used. -/
theorem translate_stage_fallback_witness :
    itemValue ⟨"k", some "translated", some "orig", 0⟩ = "orig" :=
  (translate_stage_fallback [⟨"k", some "translated", some "orig", 0⟩] _
    (List.mem_singleton.mpr rfl)).2.1 (Or.inl rfl)

/-- C10: when saving translations, every fetched value first has each
backslash-quote pair replaced by a bare double-quote
(`subBackslashQuote`); for a file whose path contains "quests", every
ASCII space is then replaced with U+00A0 unless the value contains
"image"; values in non-quest files keep their spaces. -/
theorem process_translation_value (path v : String) :
    (containsStr path "quests" = false → processValue path v = subBackslashQuote v) ∧
    (containsStr path "quests" = true → containsStr (subBackslashQuote v) "image" = true →
      processValue path v = subBackslashQuote v) ∧
    (containsStr path "quests" = true → containsStr (subBackslashQuote v) "image" = false →
      processValue path v = replaceSpaces (subBackslashQuote v)) := by
  refine ⟨fun h => ?_, fun h1 h2 => ?_, fun h1 h2 => ?_⟩
  · simp [processValue, h]
  · simp [processValue, h1, h2]
  · simp [processValue, h1, h2]

/-- Witness for C10: a quest-file value without "image" gets
non-breaking spaces; a non-quest path keeps the value. -/
theorem process_translation_value_witness :
    processValue "kubejs/assets/quests/lang/en_us.json" "a b" = "a b" ∧
    processValue "other/en_us.json" "a b" = "a b" := by
  constructor
  · rw [(process_translation_value "kubejs/assets/quests/lang/en_us.json" "a b").2.2
      (by decide) (by decide)]
    decide
  · rw [(process_translation_value "other/en_us.json" "a b").1 (by decide)]
    decide

/-- C8: if the Reconstructor's input has zero entries the run aborts
without writing an output file (`none`), and whenever a file is
written its content is non-empty. -/
theorem merge_empty_aborts :
    mergeAllToSnbt [] = none ∧
    ∀ (l out : List (String × Val)), mergeAllToSnbt l = some out → out ≠ [] := by
  constructor
  · rfl
  · intro l out h
    rw [mergeAllToSnbt] at h
    by_cases hl : l = []
    · rw [if_pos hl] at h
      exact absurd h (by simp)
    · rw [if_neg hl] at h
      have := reconstruct_ne_nil hl
      rw [Option.some.injEq] at h
      rw [← h]
      exact this

/-- Witness for C8: a nonempty input yields a nonempty written
result. -/
theorem merge_empty_aborts_witness :
    reconstruct [("a", Val.str "x")] ≠ [] :=
  merge_empty_aborts.2 [("a", Val.str "x")] (reconstruct [("a", Val.str "x")]) rfl

/-- C6: for every flat mapping in which no key ends in a decimal
digit, the Reconstructor returns the same entries, merely reordered
into key-sorted order. -/
theorem reconstruct_no_digit_keys (l : List (String × Val))
    (h : ∀ e ∈ l, noDigitSuffix e.1.data) :
    (reconstruct l).Perm l ∧
    (reconstruct l).Pairwise (fun a b => keyLe a b = true) := by
  have hdata : reconstructData l = l := by
    rw [reconstructData, regroup_no_match l [] [] (fun e he => splitKey_eq_none (h e he))]
    simp
  constructor
  · rw [reconstruct, sortByKey, hdata]
    exact List.mergeSort_perm l keyLe
  · rw [reconstruct, sortByKey, hdata]
    exact List.sorted_mergeSort (fun a b c => keyLe_trans a b c) keyLe_total l

/-- C9: the Reconstructor treats every key ending in decimal digits
as a multi-line fragment: the trailing digit run is stripped, the
value becomes an element of a list emitted under the digit-free base
key, and the original digit-suffixed key never appears in the
output. -/
theorem reconstruct_digit_suffix_key (l : List (String × Val)) (k : String) (v : Val)
    (b : List Char) (n : Nat) (hmem : (k, v) ∈ l)
    (hsp : splitKey k.data = some (b, n)) :
    (∀ e ∈ reconstruct l, e.1 ≠ k) ∧
    ∃ vs, ((⟨b⟩ : String), Val.lst vs) ∈ reconstruct l ∧ v ∈ vs := by
  constructor
  · intro e he hek
    rw [reconstruct, sortByKey] at he
    have he2 : e ∈ reconstructData l := List.mem_mergeSort.mp he
    rw [reconstructData] at he2
    rcases List.mem_append.mp he2 with hd | ht
    · have hnone := regroup_direct_none l [] [] (by simp) e hd
      rw [hek] at hnone
      rw [hnone] at hsp
      exact absurd hsp (by simp)
    · obtain ⟨x, hx, hxe⟩ := List.mem_map.mp ht
      have hkey : e.1 = x.1 := by rw [← hxe]
      have hnd := regroup_temp_base_keys l [] [] (by simp) x.1
        (List.mem_map_of_mem _ hx)
      have hnone : splitKey x.1.data = none := splitKey_eq_none hnd
      rw [← hkey, hek] at hnone
      rw [hnone] at hsp
      exact absurd hsp (by simp)
  · obtain ⟨items, hin, hp⟩ := regroup_temp_mem l [] [] k v b n hmem hsp
    refine ⟨(sortPairsByIdx items).map Prod.snd, ?_, ?_⟩
    · rw [reconstruct, sortByKey]
      apply List.mem_mergeSort.mpr
      rw [reconstructData]
      apply List.mem_append_right
      exact List.mem_map.mpr ⟨(⟨b⟩, items), hin, rfl⟩
    · apply List.mem_map.mpr
      refine ⟨(n, v), ?_, rfl⟩
      rw [sortPairsByIdx]
      exact List.mem_mergeSort.mpr hp

/-- Witness for C9: the lone key `foo.bar2` with a string value is
emitted as a one-element list under `foo.bar`, and `foo.bar2` itself
is gone. -/
theorem reconstruct_digit_suffix_key_witness :
    (∀ e ∈ reconstruct [("foo.bar2", Val.str "x")], e.1 ≠ "foo.bar2") ∧
    ∃ vs, (("foo.bar" : String), Val.lst vs) ∈ reconstruct [("foo.bar2", Val.str "x")] ∧
      Val.str "x" ∈ vs :=
  reconstruct_digit_suffix_key [("foo.bar2", Val.str "x")] "foo.bar2" (Val.str "x")
    "foo.bar".data 2 (List.mem_singleton.mpr rfl) (by decide)

/-- Witness for C6 at a concrete two-entry mapping. -/
theorem reconstruct_no_digit_keys_witness :
    (reconstruct [("b.key", Val.str "v"), ("a.key", Val.str "w")]).Perm
        [("b.key", Val.str "v"), ("a.key", Val.str "w")] ∧
    (reconstruct [("b.key", Val.str "v"), ("a.key", Val.str "w")]).Pairwise
        (fun a b => keyLe a b = true) :=
  reconstruct_no_digit_keys _ (by decide)

end LangTools
